import Mathlib

/-!
# rational_adaptor over an arbitrary-precision integer backend

A shallow embedding of `boost/multiprecision/rational_adaptor.hpp`.

* `number<IntBackend>` (an arbitrary-precision signed integer) is `Int`; what the
  adaptor asks of the backend beyond integer arithmetic (its text parser and its text
  formatter) is the parameter `IntBackend`.
* A C string (`const char *`) is the `List Char` of its characters; reading `*s` at the end
  of the list yields the terminating NUL.
* A member function that mutates `*this` and may throw returns an `Outcome`: the adaptor as
  it is after the call, and the exception that left the call, if any.
-/

namespace Multiprecision

/-! ## Exceptions -/

/-- The exceptions that can leave the adaptor's functions. -/
inductive Exn where
  /-- The `std::runtime_error` thrown at line 139 (trailing characters). -/
  | runtime_error (what : List Char)
  /-- The `std::overflow_error` thrown at line 233. -/
  | overflow_error (what : List Char)
  /-- The exception `boost::bad_rational` of the backing fraction type. -/
  | bad_rational
  /-- An exception thrown by the integer backend while it parses a text. -/
  | backend_error
  /-- An exception thrown by the archive while a value is read from it. -/
  | archive_error
  deriving DecidableEq, Repr

/-! ## The integer backend -/

/-- The two text operations of `number<IntBackend>` the adaptor calls. `assign s` is
`v.assign(s)`: the integer the backend reads from the text, or `none` when the backend
throws. `str n digits f` is `n.str(digits, f)`. -/
structure IntBackend where
  assign : List Char → Option Int
  str : Int → Int → Nat → List Char

/-! ## The backing fraction type -/

/-- Modelled from the spec: `boost::rational<integer_type>` (header `boost/rational.hpp`,
included at line 19) is not under src/. The spec describes it as the backing fraction
representation: a numerator/denominator pair of integers that is reduced by the gcd and
given a positive denominator whenever it is constructed or assigned. -/
structure rational_type where
  num : Int
  den : Int
  deriving DecidableEq, Repr

namespace rational_type

/-- Modelled from the spec: the gcd-reduction of the pair `n/d` performed by the absent
`boost::rational` (lowest terms, sign carried by the numerator, zero stored as `0/1`). -/
def reduce (n d : Int) : rational_type :=
  let g : Int := Int.gcd n d
  if d < 0 then ⟨-(n / g), -(d / g)⟩ else ⟨n / g, d / g⟩

/-- Modelled from the spec: `boost::rational::assign(n, d)`, the normalising assignment of
the absent fraction type: the pair is stored reduced by the gcd, with the sign on the
numerator. The spec names no error of assignment and has a text with denominator zero
accepted at parse time, so a pair with `d = 0` is reduced and stored like any other. -/
def assign (n d : Int) : Except Exn rational_type :=
  Except.ok (reduce n d)

/-- Modelled from the spec: the default-constructed `boost::rational`, value `0/1`. -/
def zero : rational_type := ⟨0, 1⟩

/-- Modelled from the spec: `boost::rational` constructed or assigned from an integer `i`:
numerator `i`, denominator `1`. -/
def of_int (i : Int) : rational_type := ⟨i, 1⟩

/-- Modelled from the spec: `operator+=` of the absent `boost::rational`, the standard
fraction algebra `a/b + c/d = (a*d + c*b)/(b*d)` renormalised to canonical form. -/
def add (a b : rational_type) : rational_type :=
  reduce (a.num * b.den + b.num * a.den) (a.den * b.den)

/-- Modelled from the spec: `operator-=` of the absent `boost::rational`,
`a/b - c/d = (a*d - c*b)/(b*d)` renormalised to canonical form. -/
def sub (a b : rational_type) : rational_type :=
  reduce (a.num * b.den - b.num * a.den) (a.den * b.den)

/-- Modelled from the spec: `operator*=` of the absent `boost::rational`,
`a/b * c/d = (a*c)/(b*d)` renormalised to canonical form. -/
def mul (a b : rational_type) : rational_type :=
  reduce (a.num * b.num) (a.den * b.den)

/-- Modelled from the spec: `operator/=` of the absent `boost::rational`,
`(a/b) / (c/d) = (a*d)/(b*c)` renormalised to canonical form; the fraction type itself
throws `bad_rational` for a divisor with numerator zero. -/
def div (a b : rational_type) : Except Exn rational_type :=
  if b.num = 0 then Except.error Exn.bad_rational
  else Except.ok (reduce (a.num * b.den) (a.den * b.num))

/-- Modelled from the spec: unary minus of the absent `boost::rational`: the numerator is
negated, the denominator is untouched. -/
def neg (a : rational_type) : rational_type := ⟨-a.num, a.den⟩

end rational_type

/-- Canonical form of a numerator/denominator pair: positive denominator and lowest terms.
(With a positive denominator, `gcd (|num|, den) = 1` forces a zero value to be `0/1`.) -/
def canonical (r : rational_type) : Prop :=
  0 < r.den ∧ Nat.gcd r.num.natAbs r.den.natAbs = 1

instance (r : rational_type) : Decidable (canonical r) := by
  unfold canonical; infer_instance

/-! ## The adaptor -/

/-- The adaptor `rational_adaptor<IntBackend>`: its only member is `m_value` (line 209). -/
structure rational_adaptor where
  m_value : rational_type
  deriving DecidableEq, Repr

/-- The state of `*this` after a call, and the exception that left the call, if any. -/
structure Outcome where
  self : rational_adaptor
  thrown : Option Exn
  deriving DecidableEq, Repr

namespace rational_adaptor

/-- Accessor `data()` (lines 181-182). -/
def data (a : rational_adaptor) : rational_type := a.m_value

/-- Default constructor (line 38): `m_value` is default-constructed. -/
def default : rational_adaptor := ⟨rational_type.zero⟩

/-- `operator=(Int i)` (lines 80-85): `m_value = i`. -/
def operator_assign_int (_self : rational_adaptor) (i : Int) : rational_adaptor :=
  ⟨rational_type.of_int i⟩

/-- `data().assign(v1, v2)`: a temporary fraction is built from the pair and only then
stored into `m_value`; an exception of the fraction type would leave `m_value` as it was. -/
def data_assign (self : rational_adaptor) (v1 v2 : Int) : Outcome :=
  match rational_type.assign v1 v2 with
  | Except.error e => ⟨self, some e⟩
  | Except.ok r => ⟨⟨r⟩, none⟩

end rational_adaptor

/-! ## Floating-point assignment (lines 86-105) -/

/-- A finite binary floating-point value, `mant * 2 ^ exp`. A value of a format with `p`
significand digits has `|mant| < 2 ^ p`. -/
structure FloatVal where
  mant : Int
  exp : Int
  deriving DecidableEq, Repr

/-- Number of binary digits of `n`, by repeated halving (`fuel` bounds the halvings). -/
def bit_length_aux : Nat → Nat → Nat
  | 0, _ => 0
  | fuel + 1, n => if n = 0 then 0 else bit_length_aux fuel (n / 2) + 1

/-- Number of binary digits of `n`: the least `b` with `n < 2 ^ b`. -/
def bit_length (n : Nat) : Nat := bit_length_aux n n

/-- The call `std::frexp(i, &e)`: the fraction `f` with `0.5 ≤ |f| < 1` and the exponent
`e` with `i = f * 2 ^ e`; for zero both are zero. -/
def frexp (i : FloatVal) : FloatVal × Int :=
  if i.mant = 0 then (⟨0, 0⟩, 0)
  else (⟨i.mant, -(bit_length i.mant.natAbs : Int)⟩, i.exp + bit_length i.mant.natAbs)

/-- The call `std::ldexp(f, n)`, that is `f * 2 ^ n`. -/
def ldexp (f : FloatVal) (n : Int) : FloatVal := ⟨f.mant, f.exp + n⟩

/-- Construction `integer_type num(f)` of an integer from a floating-point value: the value
truncated toward zero. -/
def integer_from_float (f : FloatVal) : Int :=
  if 0 ≤ f.exp then f.mant * 2 ^ f.exp.toNat else Int.tdiv f.mant (2 ^ (-f.exp).toNat)

/-- The mantissa `f` and exponent `e` as they stand after line 92, for a format with
`digits` significand digits. -/
def float_decompose (digits : Nat) (i : FloatVal) : FloatVal × Int :=
  let fe := frexp i
  (ldexp fe.1 digits, fe.2 - digits)

namespace rational_adaptor

/-- `operator=(Float i)` (lines 86-105); `digits` is `std::numeric_limits<Float>::digits`. -/
def operator_assign_float (digits : Nat) (self : rational_adaptor) (i : FloatVal) : Outcome :=
  let fe := float_decompose digits i
  let f := fe.1
  let e := fe.2
  let num : Int := integer_from_float f
  let denom : Int := 1
  if e > 0 then
    self.data_assign (num * 2 ^ e.toNat) denom
  else if e < 0 then
    self.data_assign num (denom * 2 ^ (-e).toNat)
  else
    self.data_assign num denom

end rational_adaptor

/-! ## Text assignment (lines 106-143) -/

/-- The terminating NUL of a C string. -/
def NUL : Char := Char.ofNat 0

/-- Reading `*s`: the first character, or NUL at the end of the string. -/
def deref (s : List Char) : Char := s.headD NUL

/-- The C string a `const char *` denotes: the characters before the first NUL. -/
def cstr (s : List Char) : List Char := s.takeWhile (fun c => c != NUL)

/-- The loop condition of lines 114 and 126 for the character `c` just read. -/
def scan_cond (c : Char) (have_hex : Bool) : Bool :=
  c != NUL &&
    (c == 'x' || c == 'X' || c == '-' || c == '+' || (decide ('0' ≤ c) && decide (c ≤ '9'))
      || (have_hex && (decide ('a' ≤ c) && decide (c ≤ 'f')))
      || (have_hex && (decide ('A' ≤ c) && decide (c ≤ 'F'))))

/-- The variables a scan loop leaves behind: the buffer `s1`, the flag `have_hex` and the
pointer `s`. -/
structure ScanState where
  s1 : List Char
  have_hex : Bool
  s : List Char
  deriving DecidableEq, Repr

/-- Lines 116-117 (and 128-129): `if (c == 'x' || c == 'X') have_hex = true;`. -/
def next_flag (c : Char) (have_hex : Bool) : Bool :=
  if c == 'x' || c == 'X' then true else have_hex

/-- One scan loop (lines 114-120, and again 126-132), started at `s` with the given flag
and buffer. -/
def scan : List Char → Bool → List Char → ScanState
  | [], have_hex, s1 => ⟨s1, have_hex, []⟩
  | c :: s, have_hex, s1 =>
    if scan_cond c have_hex then scan s (next_flag c have_hex) (s1 ++ [c])
    else ⟨s1, have_hex, c :: s⟩

/-- The text of the exception of line 139 for the saved pointer `p`. -/
def parse_error_message (p : List Char) : List Char :=
  "Could not parse the string \"".toList ++ cstr p ++ "\" as a valid rational number.".toList

namespace rational_adaptor

/-- Lines 137-142: the check for unconsumed characters, then `data().assign(v1, v2)`. -/
def finish_assign (self : rational_adaptor) (p s : List Char) (v1 v2 : Int) : Outcome :=
  if deref s ≠ NUL then ⟨self, some (Exn.runtime_error (parse_error_message p))⟩
  else self.data_assign v1 v2

/-- `operator=(const char *s)` (lines 106-143). -/
def operator_assign_cstr (B : IntBackend) (self : rational_adaptor) (s : List Char) : Outcome :=
  let p := s
  let st := scan s false []
  match B.assign st.s1 with
  | none => ⟨self, some Exn.backend_error⟩
  | some v1 =>
    if deref st.s = '/' then
      let st2 := scan st.s.tail st.have_hex []
      match B.assign st2.s1 with
      | none => ⟨self, some Exn.backend_error⟩
      | some v2 => self.finish_assign p st2.s v1 v2
    else
      self.finish_assign p st.s v1 1

/-- `str(digits, f)` (lines 148-160). -/
def str (B : IntBackend) (self : rational_adaptor) (digits : Int) (f : Nat) : List Char :=
  let result := B.str self.data.num digits f
  if self.data.den ≠ 1 then
    (result ++ ['/']) ++ B.str self.data.den digits f
  else result

/-- `negate()` (lines 161-164). -/
def negate (self : rational_adaptor) : rational_adaptor := ⟨self.m_value.neg⟩

end rational_adaptor

/-! ## The free functions (lines 212-283) -/

/-- `eval_add` (lines 212-216). -/
def eval_add (result o : rational_adaptor) : rational_adaptor :=
  ⟨result.data.add o.data⟩

/-- `eval_subtract` (lines 217-221). -/
def eval_subtract (result o : rational_adaptor) : rational_adaptor :=
  ⟨result.data.sub o.data⟩

/-- `eval_multiply` (lines 222-226). -/
def eval_multiply (result o : rational_adaptor) : rational_adaptor :=
  ⟨result.data.mul o.data⟩

/-- `eval_is_zero` (lines 266-271): the backend's zero test on the numerator. -/
def eval_is_zero (val : rational_adaptor) : Bool := val.data.num == 0

/-- `eval_get_sign` (lines 272-277): the backend's sign of the numerator. -/
def eval_get_sign (val : rational_adaptor) : Int := Int.sign val.data.num

/-- The text of the exception of line 233. -/
def divide_by_zero_message : List Char := "Divide by zero.".toList

/-- `eval_divide` (lines 227-236). -/
def eval_divide (result o : rational_adaptor) : Outcome :=
  if eval_is_zero o then ⟨result, some (Exn.overflow_error divide_by_zero_message)⟩
  else
    match result.data.div o.data with
    | Except.error e => ⟨result, some e⟩
    | Except.ok r => ⟨⟨r⟩, none⟩

/-- `assign_components` (lines 279-283). -/
def assign_components (result : rational_adaptor) (v1 v2 : Int) : Outcome :=
  result.data_assign v1 v2

/-! ## The scanner's view of an input -/

/-- The numerator text handed to the backend at line 121. -/
def numerator_text (s : List Char) : List Char := (scan s false []).s1

/-- The denominator text handed to the backend at line 133, when the numerator scan
stopped at a `/`. -/
def denominator_text (s : List Char) : Option (List Char) :=
  let st := scan s false []
  if deref st.s = '/' then some (scan st.s.tail st.have_hex []).s1 else none

/-- The pointer `s` as the check of line 137 finds it: what both scans left unconsumed. -/
def unconsumed (s : List Char) : List Char :=
  let st := scan s false []
  if deref st.s = '/' then (scan st.s.tail st.have_hex []).s else st.s

/-! ## A concrete integer backend

A small backend on which the adaptor can be run: it reads an optional sign followed by
decimal digits, or by `0x`/`0X` and hexadecimal digits, and writes plain decimal. -/

/-- The value of the digit `c` in the given radix (10 or 16). -/
def digit_value (radix : Nat) (c : Char) : Option Nat :=
  if '0' ≤ c ∧ c ≤ '9' then some (c.toNat - 48)
  else if radix = 16 ∧ 'a' ≤ c ∧ c ≤ 'f' then some (c.toNat - 87)
  else if radix = 16 ∧ 'A' ≤ c ∧ c ≤ 'F' then some (c.toNat - 55)
  else none

/-- Reads digits of the given radix onto the accumulator; `none` at a foreign character. -/
def read_digits (radix : Nat) : List Char → Nat → Option Nat
  | [], acc => some acc
  | c :: cs, acc =>
    match digit_value radix c with
    | none => none
    | some d => read_digits radix cs (acc * radix + d)

/-- Reads an unsigned literal: `0x`/`0X` introduces hexadecimal digits. -/
def read_unsigned : List Char → Option Nat
  | '0' :: 'x' :: t => read_digits 16 t 0
  | '0' :: 'X' :: t => read_digits 16 t 0
  | t => read_digits 10 t 0

/-- Reads an optionally signed literal. -/
def read_integer : List Char → Option Int
  | '-' :: t => (read_unsigned t).map (fun n => -(n : Int))
  | '+' :: t => (read_unsigned t).map (fun n => (n : Int))
  | t => (read_unsigned t).map (fun n => (n : Int))

/-- The decimal digits of `n`, most significant first, pushed in front of `acc`. -/
def decimal_digits : Nat → Nat → List Char → List Char
  | 0, _, acc => acc
  | fuel + 1, n, acc =>
    if n / 10 = 0 then Char.ofNat (48 + n % 10) :: acc
    else decimal_digits fuel (n / 10) (Char.ofNat (48 + n % 10) :: acc)

/-- Plain decimal text of an integer. -/
def write_integer (n : Int) : List Char :=
  (if n < 0 then ['-'] else []) ++ decimal_digits (n.natAbs + 1) n.natAbs []

/-- The concrete backend: `read_integer` as parser, plain decimal as formatter whatever
the digit count and flags. -/
def decimal_backend : IntBackend where
  assign := read_integer
  str := fun n _ _ => write_integer n

/-- The pair `(v1, v2)` the backend reads from the scanned texts (lines 121-136): `none`
when the backend throws on one of them; `v2` is `1` when there is no denominator text. -/
def parsed_components (B : IntBackend) (s : List Char) : Option (Int × Int) :=
  match B.assign (numerator_text s) with
  | none => none
  | some v1 =>
    match denominator_text s with
    | none => some (v1, 1)
    | some t =>
      match B.assign t with
      | none => none
      | some v2 => some (v1, v2)

/-! ## Integer literals and the input grammar -/

/-- A decimal digit, `[0-9]`. -/
def is_digit (c : Char) : Bool := decide ('0' ≤ c) && decide (c ≤ '9')

/-- A hexadecimal letter, `[a-fA-F]`. -/
def is_hex_letter (c : Char) : Bool :=
  (decide ('a' ≤ c) && decide (c ≤ 'f')) || (decide ('A' ≤ c) && decide (c ≤ 'F'))

/-- A hexadecimal digit, `[0-9a-fA-F]`. -/
def is_hex_digit (c : Char) : Bool := is_digit c || is_hex_letter c

/-- An integer literal in the sense of the parsing contract: an optional sign, then either
decimal digits, or the prefix `0x`/`0X` and hexadecimal digits. -/
def integer_literal (s : List Char) : Prop :=
  ∃ sign pre digits, s = sign ++ pre ++ digits
    ∧ (sign = [] ∨ sign = ['-'] ∨ sign = ['+'])
    ∧ digits ≠ []
    ∧ ((pre = [] ∧ ∀ c ∈ digits, is_digit c = true)
        ∨ ((pre = ['0', 'x'] ∨ pre = ['0', 'X']) ∧ ∀ c ∈ digits, is_hex_digit c = true))

/-- One integer of the stated input grammar, `[-+]?(0[xX])?[0-9a-fA-F]+`. -/
def grammar_integer (s : List Char) : Prop :=
  ∃ sign pre digits, s = sign ++ pre ++ digits
    ∧ (sign = [] ∨ sign = ['-'] ∨ sign = ['+'])
    ∧ (pre = [] ∨ pre = ['0', 'x'] ∨ pre = ['0', 'X'])
    ∧ digits ≠ []
    ∧ ∀ c ∈ digits, is_hex_digit c = true

/-- The stated input grammar,
`[-+]?(0[xX])?[0-9a-fA-F]+(/[-+]?(0[xX])?[0-9a-fA-F]+)?`. -/
def matches_grammar (s : List Char) : Prop :=
  grammar_integer s ∨ ∃ N D, s = N ++ '/' :: D ∧ grammar_integer N ∧ grammar_integer D

/-- Every hexadecimal letter of the text has an `x` or `X` somewhere before it (`seen`
tells whether one came before the text). -/
def hex_letters_follow_x : Bool → List Char → Bool
  | _, [] => true
  | seen, c :: t =>
    (!is_hex_letter c || seen)
      && hex_letters_follow_x (next_flag c seen) t

/-- The flag `have_hex` after the characters of `a` have been scanned. -/
def flag_after : Bool → List Char → Bool
  | h, [] => h
  | h, c :: t => flag_after (next_flag c h) t

/-- The scan loop consumes every character of `a` when started with flag `h`. -/
def scanned_whole : Bool → List Char → Bool
  | _, [] => true
  | h, c :: t => scan_cond c h && scanned_whole (next_flag c h) t

/-- The characters the scan loop can consume at all: `x`, `X`, the signs and the
hexadecimal digits. -/
def in_scan_alphabet (c : Char) : Bool :=
  c == 'x' || c == 'X' || c == '-' || c == '+' || is_hex_digit c

/-- Plain decimal text of an integer: an optional `-`, then one or more decimal digits. -/
def decimal_text (t : List Char) : Prop :=
  ∃ sign digits, t = sign ++ digits ∧ (sign = [] ∨ sign = ['-']) ∧ digits ≠ []
    ∧ ∀ c ∈ digits, is_digit c = true

/-! ## Comparison (lines 165-180) -/

namespace rational_type

/-- Modelled from the spec: `operator<` of the absent `boost::rational` on two fractions,
the exact cross-multiplication comparison `a/b < c/d` iff `a*d < c*b` (both denominators
being positive). -/
def lt (a b : rational_type) : Bool := decide (a.num * b.den < b.num * a.den)

/-- Modelled from the spec: `operator>` of the absent `boost::rational` on two fractions:
`a > b` is `b < a`. -/
def gt (a b : rational_type) : Bool := lt b a

/-- Modelled from the spec: `operator<` of the absent `boost::rational` against an integer
`i`. The spec gives its meaning (the integer counts as `i/1`); the computation is the one
of Boost.Rational: the quotient of `num` by `den` rounded toward minus infinity is compared
with `i`. -/
def lt_int (a : rational_type) (i : Int) : Bool := decide (a.num / a.den < i)

/-- Modelled from the spec: `operator==` of the absent `boost::rational` against an integer
`i`: numerator `i` and denominator `1`. -/
def eq_int (a : rational_type) (i : Int) : Bool := a.num == i && a.den == 1

/-- Modelled from the spec: `operator>` of the absent `boost::rational` against an integer
`i`, computed as Boost.Rational does: false when equal to `i`, else the negation of `<`. -/
def gt_int (a : rational_type) (i : Int) : Bool :=
  if eq_int a i then false else !lt_int a i

/-- The rational number a numerator/denominator pair stands for. -/
def value (a : rational_type) : ℚ := (a.num : ℚ) / (a.den : ℚ)

end rational_type

namespace rational_adaptor

/-- `compare(const rational_adaptor &o)` (lines 165-168). -/
def compare (self o : rational_adaptor) : Int :=
  if self.m_value.gt o.m_value then 1 else (if self.m_value.lt o.m_value then -1 else 0)

/-- `compare(Arithmatic i)` for an integral `i` (lines 169-173). -/
def compare_int (self : rational_adaptor) (i : Int) : Int :=
  if self.m_value.gt_int i then 1 else (if self.m_value.lt_int i then -1 else 0)

/-- `compare(Arithmatic i)` for a floating-point `i` (lines 174-180): a default-constructed
`r` is assigned `i`, then `this->compare(r)`; an exception of the assignment propagates. -/
def compare_float (digits : Nat) (self : rational_adaptor) (i : FloatVal) : Except Exn Int :=
  let out := operator_assign_float digits rational_adaptor.default i
  match out.thrown with
  | some e => Except.error e
  | none => Except.ok (self.compare out.self)

end rational_adaptor

/-! ## Conversion to an integer (lines 257-264) -/

/-- Modelled from the spec: `operator/=` of `number<IntBackend>`, which is not under src/:
the backend's own integer division, truncating toward zero. -/
def integer_divide (t d : Int) : Int := Int.tdiv t d

/-- `eval_convert_to` for an integer target `R` (lines 257-264): `t = numerator`,
`t /= denominator`, then `t.convert_to<R>()`, given as the parameter `convert_to`. -/
def eval_convert_to_integer (convert_to : Int → Int) (backend : rational_adaptor) : Int :=
  let t := backend.data.num
  let t := integer_divide t backend.data.den
  convert_to t

/-! ## Hashing (lines 285-291) -/

/-- The two hash functions `hash_value` of the adaptor calls: `hash_value` of the integer
type, and `boost::hash_combine`, given as the new seed for an old seed and the hash of the
value combined in. -/
structure HashOps where
  hash_value : Int → Nat
  combine : Nat → Nat → Nat

/-- `hash_value(const rational_adaptor &val)` (lines 285-291). -/
def hash_value (H : HashOps) (val : rational_adaptor) : Nat :=
  let result := H.hash_value val.data.num
  H.combine result (H.hash_value val.data.den)

/-- A concrete pair of hash functions: the integer's hash is `2|n|` or `2|n| + 1` by sign,
and the combination is `seed ^ (h + 0x9e3779b9 + (seed << 6) + (seed >> 2))` on 64 bits. -/
def mixing_hash : HashOps where
  hash_value := fun n => if n < 0 then 2 * n.natAbs + 1 else 2 * n.natAbs
  combine := fun seed h =>
    (seed ^^^ ((h + 0x9e3779b9 + (seed <<< 6) + (seed >>> 2)) % 2 ^ 64)) % 2 ^ 64

/-! ## Serialization (lines 184-206) -/

/-- Modelled from the spec: the archive of the serialization framework, which is not under
src/: the named integer fields it holds, in the order they were written and are read. -/
abbrev Archive := List (List Char × Int)

/-- Modelled from the spec: saving one value with `ar & make_nvp(name, x)`, the named field
is appended to the archive. -/
def archive_write (ar : Archive) (name : List Char) (x : Int) : Archive := ar ++ [(name, x)]

/-- Modelled from the spec: loading one value with `ar & make_nvp(name, x)`, the next field
of the archive, which must carry that name, and the rest of the archive; `none` when the
archive throws. -/
def archive_read (ar : Archive) (name : List Char) : Option (Int × Archive) :=
  match ar with
  | [] => none
  | (nm, x) :: rest => if nm = name then some (x, rest) else none

namespace rational_adaptor

/-- `serialize(ar, mpl::true_)` (lines 184-191), saving: the archive after the two writes. -/
def serialize_save (self : rational_adaptor) (ar : Archive) : Archive :=
  let n := self.m_value.num
  let d := self.m_value.den
  let ar := archive_write ar "numerator".toList n
  archive_write ar "denominator".toList d

/-- `serialize(ar, mpl::false_)` (lines 192-200), loading: the outcome for `*this` and the
archive left after the reads. -/
def serialize_load (self : rational_adaptor) (ar : Archive) : Outcome × Archive :=
  match archive_read ar "numerator".toList with
  | none => (⟨self, some Exn.archive_error⟩, ar)
  | some (n, ar1) =>
    match archive_read ar1 "denominator".toList with
    | none => (⟨self, some Exn.archive_error⟩, ar1)
    | some (d, ar2) => (self.data_assign n d, ar2)

end rational_adaptor

/-! ## Lemmas on the gcd-reduction -/

theorem gcd_pos_of_den_ne_zero (n d : Int) (hd : d ≠ 0) : 0 < (Int.gcd n d : Int) := by
  have h : Int.gcd n d ≠ 0 := by
    intro h0
    exact hd (Int.gcd_eq_zero_iff.mp h0).2
  exact_mod_cast Nat.pos_of_ne_zero h

theorem reduce_canonical (n d : Int) (hd : d ≠ 0) : canonical (rational_type.reduce n d) := by
  have hg := gcd_pos_of_den_ne_zero n d hd
  have hg' : 0 < Int.gcd n d := by exact_mod_cast hg
  have hco := Int.gcd_div_gcd_div_gcd hg'
  have hdvd : (Int.gcd n d : Int) ∣ d := Int.gcd_dvd_right
  unfold rational_type.reduce canonical
  by_cases hneg : d < 0
  · simp only [hneg, if_true]
    refine ⟨?_, ?_⟩
    · have : d / (Int.gcd n d : Int) < 0 := Int.ediv_lt_of_lt_mul hg (by simpa using hneg)
      omega
    · simpa [Int.gcd, Int.natAbs_neg] using hco
  · simp only [hneg, if_false]
    refine ⟨?_, ?_⟩
    · have hpos : 0 < d := by omega
      exact Int.ediv_pos_of_pos_of_dvd hpos (le_of_lt hg) hdvd
    · simpa [Int.gcd] using hco

theorem reduce_value (n d : Int) :
    (rational_type.reduce n d).num * d = n * (rational_type.reduce n d).den := by
  have h1 : (Int.gcd n d : Int) ∣ n := Int.gcd_dvd_left
  have h2 : (Int.gcd n d : Int) ∣ d := Int.gcd_dvd_right
  have e1 : n / (Int.gcd n d : Int) * (Int.gcd n d : Int) = n := Int.ediv_mul_cancel h1
  have e2 : (Int.gcd n d : Int) * (d / (Int.gcd n d : Int)) = d := Int.mul_ediv_cancel' h2
  have key : n / (Int.gcd n d : Int) * d = n * (d / (Int.gcd n d : Int)) := by
    calc n / (Int.gcd n d : Int) * d
        = n / (Int.gcd n d : Int) * ((Int.gcd n d : Int) * (d / (Int.gcd n d : Int))) := by
          rw [e2]
      _ = (n / (Int.gcd n d : Int) * (Int.gcd n d : Int)) * (d / (Int.gcd n d : Int)) := by
          ring
      _ = n * (d / (Int.gcd n d : Int)) := by rw [e1]
  unfold rational_type.reduce
  by_cases hneg : d < 0
  · simp only [hneg, if_true]
    linarith
  · simp only [hneg, if_false]
    exact key

theorem reduce_of_canonical (r : rational_type) (h : canonical r) :
    rational_type.reduce r.num r.den = r := by
  obtain ⟨hpos, hco⟩ := h
  have hg : Int.gcd r.num r.den = 1 := hco
  unfold rational_type.reduce
  have : ¬ r.den < 0 := by omega
  simp [hg, this]

theorem canonical_zero_num (r : rational_type) (h : canonical r) (h0 : r.num = 0) :
    r = ⟨0, 1⟩ := by
  obtain ⟨hpos, hco⟩ := h
  cases r with
  | mk n d =>
    simp only at h0 hpos hco
    subst h0
    simp at hco
    have : d = 1 := by omega
    subst this
    rfl

theorem reduce_formula (n d : Int) (hd : d ≠ 0) :
    (rational_type.reduce n d).num = Int.sign d * n / (Int.gcd n d : Int)
      ∧ (rational_type.reduce n d).den = |d| / (Int.gcd n d : Int) := by
  have h1 : (Int.gcd n d : Int) ∣ n := Int.gcd_dvd_left
  have h2 : (Int.gcd n d : Int) ∣ d := Int.gcd_dvd_right
  unfold rational_type.reduce
  rcases lt_trichotomy d 0 with hneg | hz | hpos
  · simp only [hneg, if_true]
    rw [Int.sign_eq_neg_one_of_neg hneg, abs_of_neg hneg]
    constructor
    · rw [neg_one_mul, Int.neg_ediv_of_dvd h1]
    · rw [Int.neg_ediv_of_dvd h2]
  · exact absurd hz hd
  · have : ¬ d < 0 := by omega
    simp only [this, if_false]
    rw [Int.sign_eq_one_of_pos hpos, abs_of_pos hpos, one_mul]
    exact ⟨rfl, rfl⟩
open rational_adaptor

/-! ## Text assignment in terms of the scanner's view -/

theorem operator_assign_cstr_eq (B : IntBackend) (self : rational_adaptor) (s : List Char) :
    operator_assign_cstr B self s =
      match parsed_components B s with
      | none => ⟨self, some Exn.backend_error⟩
      | some (v1, v2) => self.finish_assign s (unconsumed s) v1 v2 := by
  simp only [operator_assign_cstr, parsed_components, numerator_text, denominator_text, unconsumed]
  cases h1 : B.assign (scan s false []).s1 with
  | none => rfl
  | some v1 =>
    by_cases hc : deref (scan s false []).s = '/'
    · cases h2 : B.assign (scan (scan s false []).s.tail (scan s false []).have_hex []).s1 with
      | none => simp [hc, h2]
      | some v2 => simp [hc, h2]
    · simp [hc]

theorem data_assign_eq (self : rational_adaptor) (n d : Int) :
    self.data_assign n d = ⟨⟨rational_type.reduce n d⟩, none⟩ := by
  simp [data_assign, rational_type.assign]

theorem data_assign_ok (self : rational_adaptor) (n d : Int) (_hd : d ≠ 0) :
    self.data_assign n d = ⟨⟨rational_type.reduce n d⟩, none⟩ :=
  data_assign_eq self n d

theorem reduce_zero_num (d : Int) (hd : d ≠ 0) : rational_type.reduce 0 d = ⟨0, 1⟩ :=
  canonical_zero_num _ (reduce_canonical 0 d hd)
    (by unfold rational_type.reduce; split <;> simp)

theorem operator_assign_float_eq (digits : Nat) (self : rational_adaptor) (i : FloatVal) :
    operator_assign_float digits self i =
      ⟨⟨rational_type.reduce
          (if 0 < (float_decompose digits i).2
            then integer_from_float (float_decompose digits i).1
              * 2 ^ (float_decompose digits i).2.toNat
            else integer_from_float (float_decompose digits i).1)
          (if (float_decompose digits i).2 < 0
            then 2 ^ (-(float_decompose digits i).2).toNat else 1)⟩, none⟩ := by
  unfold operator_assign_float
  by_cases h1 : (float_decompose digits i).2 > 0
  · have h2 : ¬ (float_decompose digits i).2 < 0 := by omega
    have h1' : 0 < (float_decompose digits i).2 := h1
    simp only [h1, h1', h2, if_true, if_false]
    exact data_assign_ok _ _ _ one_ne_zero
  · have h1' : ¬ 0 < (float_decompose digits i).2 := h1
    by_cases h2 : (float_decompose digits i).2 < 0
    · simp only [h1, h1', h2, if_true, if_false]
      rw [one_mul]
      exact data_assign_ok _ _ _ (pow_ne_zero _ (by norm_num))
    · simp only [h1, h1', h2, if_false]
      exact data_assign_ok _ _ _ one_ne_zero

theorem float_decompose_zero (digits : Nat) (i : FloatVal) (h : i.mant = 0) :
    integer_from_float (float_decompose digits i).1 = 0 := by
  simp [float_decompose, frexp, ldexp, integer_from_float, h]

/-- C1: every Fraction produced by default construction, by assignment from an integer, by
assignment from a floating-point value, by parsing a text whose parts the backend accepts
and whose denominator (1 when there is none) is non-zero, or by `assign_components(n, d)`
with `d ≠ 0` has `denominator > 0` and `gcd(|numerator|, denominator) = 1`, and is exactly
`0/1` when the value is zero; `assign_components(0, -7)` and the float `0.0` give `0/1`. -/
theorem constructed_fractions_are_canonical :
    (canonical rational_adaptor.default.data ∧ rational_adaptor.default.data = ⟨0, 1⟩)
    ∧ (∀ (self : rational_adaptor) (i : Int),
        canonical (self.operator_assign_int i).data
          ∧ (i = 0 → (self.operator_assign_int i).data = ⟨0, 1⟩))
    ∧ (∀ (digits : Nat) (self : rational_adaptor) (x : FloatVal),
        ∃ r, operator_assign_float digits self x = ⟨⟨r⟩, none⟩ ∧ canonical r
          ∧ (x.mant = 0 → r = ⟨0, 1⟩))
    ∧ (∀ (B : IntBackend) (self : rational_adaptor) (s : List Char) (v1 v2 : Int),
        parsed_components B s = some (v1, v2) → deref (unconsumed s) = NUL → v2 ≠ 0 →
        ∃ r, operator_assign_cstr B self s = ⟨⟨r⟩, none⟩ ∧ canonical r
          ∧ (v1 = 0 → r = ⟨0, 1⟩))
    ∧ (∀ (self : rational_adaptor) (n d : Int), d ≠ 0 →
        ∃ r, assign_components self n d = ⟨⟨r⟩, none⟩ ∧ canonical r ∧ (n = 0 → r = ⟨0, 1⟩))
    ∧ (∀ self : rational_adaptor, assign_components self 0 (-7) = ⟨⟨⟨0, 1⟩⟩, none⟩)
    ∧ (∀ self : rational_adaptor, operator_assign_float 53 self ⟨0, 0⟩ = ⟨⟨⟨0, 1⟩⟩, none⟩) := by
  refine ⟨⟨by decide, rfl⟩, ?_, ?_, ?_, ?_, ?_, ?_⟩
  · intro self i
    refine ⟨?_, ?_⟩
    · simp [operator_assign_int, rational_type.of_int, rational_adaptor.data, canonical]
    · intro h; subst h; rfl
  · intro digits self x
    refine ⟨_, operator_assign_float_eq digits self x, ?_, ?_⟩
    · apply reduce_canonical
      split
      · exact pow_ne_zero _ (by norm_num)
      · exact one_ne_zero
    · intro h
      rw [float_decompose_zero digits x h]
      have : (if 0 < (float_decompose digits x).2 then (0 : Int) * 2 ^ (float_decompose digits x).2.toNat
          else 0) = 0 := by split <;> simp
      rw [this]
      apply reduce_zero_num
      split
      · exact pow_ne_zero _ (by norm_num)
      · exact one_ne_zero
  · intro B self s v1 v2 hp hrest hv2
    refine ⟨rational_type.reduce v1 v2, ?_, reduce_canonical v1 v2 hv2, ?_⟩
    · rw [operator_assign_cstr_eq, hp]
      simp only [finish_assign, hrest, ne_eq, not_true_eq_false, if_false]
      exact data_assign_ok _ _ _ hv2
    · intro h; subst h; exact reduce_zero_num v2 hv2
  · intro self n d hd
    refine ⟨rational_type.reduce n d, data_assign_ok _ _ _ hd, reduce_canonical n d hd, ?_⟩
    intro h; subst h; exact reduce_zero_num d hd
  · intro self; rfl
  · intro self; rfl

/-- Witness for C1: the text "minus six over minus four" is parsed by the decimal backend into a Fraction in
canonical form. -/
theorem constructed_fractions_are_canonical_witness :
    ∃ r, operator_assign_cstr decimal_backend rational_adaptor.default "-6/-4".toList
        = ⟨⟨r⟩, none⟩ ∧ canonical r ∧ ((-6 : Int) = 0 → r = ⟨0, 1⟩) :=
  constructed_fractions_are_canonical.2.2.2.1 decimal_backend rational_adaptor.default
    "-6/-4".toList (-6) (-4) (by decide) (by decide) (by decide)

/-! ## Arithmetic -/

theorem canonical_den_ne_zero (r : rational_type) (h : canonical r) : r.den ≠ 0 := by
  have := h.1
  omega

theorem eval_divide_ok (a o : rational_adaptor) (ho : o.data.num ≠ 0) :
    eval_divide a o
      = ⟨⟨rational_type.reduce (a.data.num * o.data.den) (a.data.den * o.data.num)⟩, none⟩ := by
  simp [eval_divide, eval_is_zero, rational_type.div, ho]

theorem eval_divide_zero (a o : rational_adaptor) (ho : o.data.num = 0) :
    eval_divide a o = ⟨a, some (Exn.overflow_error divide_by_zero_message)⟩ := by
  simp [eval_divide, eval_is_zero, ho]

/-- C2: for canonical Fractions `a` and `b`, what `eval_add`, `eval_subtract`,
`eval_multiply`, `eval_divide` (for a non-zero `b`, where it returns without throwing) and
`negate` leave in `a` has `denominator > 0` and `gcd(|numerator|, denominator) = 1`;
dividing `1/2` by `-3/4` leaves `-2/3`, the sign on the numerator. -/
theorem mutations_preserve_canonical (a b : rational_adaptor)
    (ha : canonical a.data) (hb : canonical b.data) :
    canonical (eval_add a b).data
    ∧ canonical (eval_subtract a b).data
    ∧ canonical (eval_multiply a b).data
    ∧ (eval_is_zero b = false →
        ∃ r, eval_divide a b = ⟨⟨r⟩, none⟩ ∧ canonical r)
    ∧ canonical a.negate.data
    ∧ eval_divide ⟨⟨1, 2⟩⟩ ⟨⟨-3, 4⟩⟩ = ⟨⟨⟨-2, 3⟩⟩, none⟩ := by
  have hda := canonical_den_ne_zero _ ha
  have hdb := canonical_den_ne_zero _ hb
  refine ⟨?_, ?_, ?_, ?_, ?_, by decide⟩
  · exact reduce_canonical _ _ (mul_ne_zero hda hdb)
  · exact reduce_canonical _ _ (mul_ne_zero hda hdb)
  · exact reduce_canonical _ _ (mul_ne_zero hda hdb)
  · intro hz
    have hnum : b.data.num ≠ 0 := by simpa [eval_is_zero] using hz
    exact ⟨_, eval_divide_ok a b hnum, reduce_canonical _ _ (mul_ne_zero hda hnum)⟩
  · obtain ⟨h1, h2⟩ := ha
    refine ⟨h1, ?_⟩
    simpa [rational_adaptor.negate, rational_type.neg, rational_adaptor.data] using h2

/-- Witness for C2: `a = 1/2` and `b = -3/4` are canonical, and the five mutations keep
`a` canonical. -/
theorem mutations_preserve_canonical_witness :
    canonical (eval_add ⟨⟨1, 2⟩⟩ ⟨⟨-3, 4⟩⟩).data
    ∧ canonical (eval_subtract ⟨⟨1, 2⟩⟩ ⟨⟨-3, 4⟩⟩).data
    ∧ canonical (eval_multiply ⟨⟨1, 2⟩⟩ ⟨⟨-3, 4⟩⟩).data
    ∧ (eval_is_zero ⟨⟨-3, 4⟩⟩ = false →
        ∃ r, eval_divide ⟨⟨1, 2⟩⟩ ⟨⟨-3, 4⟩⟩ = ⟨⟨r⟩, none⟩ ∧ canonical r)
    ∧ canonical (rational_adaptor.negate ⟨⟨1, 2⟩⟩).data
    ∧ eval_divide ⟨⟨1, 2⟩⟩ ⟨⟨-3, 4⟩⟩ = ⟨⟨⟨-2, 3⟩⟩, none⟩ :=
  mutations_preserve_canonical ⟨⟨1, 2⟩⟩ ⟨⟨-3, 4⟩⟩ (by decide) (by decide)

/-- C3: for every Fraction `a` and divisor `o`, `eval_divide(a, o)` throws the
`overflow_error` with text "Divide by zero." if and only if `eval_is_zero(o)` holds; when
it does, `a` is left exactly as it was; and for a non-zero `o` nothing is thrown. -/
theorem eval_divide_fails_iff_divisor_zero (a o : rational_adaptor) :
    ((eval_divide a o).thrown = some (Exn.overflow_error "Divide by zero.".toList)
        ↔ eval_is_zero o = true)
    ∧ (eval_is_zero o = true →
        eval_divide a o = ⟨a, some (Exn.overflow_error "Divide by zero.".toList)⟩)
    ∧ (eval_is_zero o = false → (eval_divide a o).thrown = none) := by
  by_cases ho : o.data.num = 0
  · have hz : eval_is_zero o = true := by simp [eval_is_zero, ho]
    rw [eval_divide_zero a o ho]
    simp [hz, divide_by_zero_message]
  · have hz : eval_is_zero o = false := by simp [eval_is_zero, ho]
    rw [eval_divide_ok a o ho]
    simp [hz]

/-! ## The trailing-characters parse error -/

theorem cstr_eq_self (s : List Char) (h : NUL ∉ s) : cstr s = s := by
  unfold cstr
  rw [List.takeWhile_eq_self_iff]
  intro c hc
  have : c ≠ NUL := fun e => h (e ▸ hc)
  simpa using this

/-- C4: when the backend accepts the scanned numerator text and (if there is one) the
scanned denominator text, and a character remains unconsumed after the scans, text
assignment throws the `runtime_error` whose text is `Could not parse the string "`, then
the complete C string `s` from its first character, then `" as a valid rational number.`;
the C string is the whole of `s` when `s` holds no NUL. -/
theorem trailing_characters_parse_error (B : IntBackend) (self : rational_adaptor)
    (s : List Char) (v1 v2 : Int)
    (haccepted : parsed_components B s = some (v1, v2))
    (hrest : deref (unconsumed s) ≠ NUL) :
    operator_assign_cstr B self s
        = ⟨self, some (Exn.runtime_error
            ("Could not parse the string \"".toList ++ cstr s
              ++ "\" as a valid rational number.".toList))⟩
      ∧ (NUL ∉ s → cstr s = s) := by
  refine ⟨?_, cstr_eq_self s⟩
  rw [operator_assign_cstr_eq, haccepted]
  simp only [finish_assign, hrest, ne_eq, not_false_eq_true, if_true, parse_error_message]

/-- Witness for C4: the text `1/2/3` leaves `/3` unconsumed and the error text quotes
`1/2/3` in full. -/
theorem trailing_characters_parse_error_witness :
    operator_assign_cstr decimal_backend rational_adaptor.default "1/2/3".toList
        = ⟨rational_adaptor.default, some (Exn.runtime_error
            ("Could not parse the string \"".toList ++ cstr "1/2/3".toList
              ++ "\" as a valid rational number.".toList))⟩
      ∧ (NUL ∉ "1/2/3".toList → cstr "1/2/3".toList = "1/2/3".toList) :=
  trailing_characters_parse_error decimal_backend rational_adaptor.default "1/2/3".toList 1 2
    (by decide) (by decide)


/-! ## What the scanner consumes -/

theorem scan_cond_of_alphabet (c : Char) (h : Bool) (ha : in_scan_alphabet c = true)
    (hg : is_hex_letter c = false ∨ h = true) : scan_cond c h = true := by
  have hnul : (c != NUL) = true := by
    rw [bne_iff_ne]
    intro e
    subst e
    exact absurd ha (by decide)
  unfold scan_cond
  rw [hnul, Bool.true_and]
  unfold in_scan_alphabet is_hex_digit is_digit at ha
  rcases hg with hg | hg
  · rw [hg, Bool.or_false] at ha
    rw [Bool.or_eq_true, Bool.or_eq_true]
    exact Or.inl (Or.inl ha)
  · subst hg
    unfold is_hex_letter at ha
    simp only [Bool.true_and, Bool.or_assoc] at ha ⊢
    exact ha

theorem scan_cond_slash (h : Bool) : scan_cond '/' h = false := by
  cases h <;> decide

theorem scan_whole (a : List Char) : ∀ (h : Bool) (s1 rest : List Char),
    scanned_whole h a = true → scan (a ++ rest) h s1 = scan rest (flag_after h a) (s1 ++ a) := by
  induction a with
  | nil => intro h s1 rest _; simp [flag_after]
  | cons c t ih =>
    intro h s1 rest hw
    rw [scanned_whole, Bool.and_eq_true] at hw
    rw [List.cons_append, scan, if_pos hw.1, flag_after, ih _ _ _ hw.2]
    simp

theorem scan_stops_at_slash (h : Bool) (s1 r : List Char) :
    scan ('/' :: r) h s1 = ⟨s1, h, '/' :: r⟩ := by
  simp [scan, scan_cond_slash]

theorem scanned_whole_of_alphabet (a : List Char) : ∀ (h : Bool),
    (∀ c ∈ a, in_scan_alphabet c = true) → hex_letters_follow_x h a = true →
    scanned_whole h a = true := by
  induction a with
  | nil => intro h _ _; rfl
  | cons c t ih =>
    intro h hal hf
    rw [hex_letters_follow_x, Bool.and_eq_true, Bool.or_eq_true, Bool.not_eq_true'] at hf
    rw [scanned_whole, Bool.and_eq_true]
    refine ⟨scan_cond_of_alphabet c h (hal c (List.mem_cons_self _ _)) hf.1, ?_⟩
    exact ih _ (fun c' hc' => hal c' (List.mem_cons_of_mem _ hc')) hf.2

theorem hex_letters_follow_x_append (a : List Char) : ∀ (h : Bool) (b : List Char),
    hex_letters_follow_x h (a ++ b)
      = (hex_letters_follow_x h a && hex_letters_follow_x (flag_after h a) b) := by
  induction a with
  | nil => intro h b; simp [hex_letters_follow_x, flag_after]
  | cons c t ih =>
    intro h b
    rw [List.cons_append, hex_letters_follow_x, hex_letters_follow_x, flag_after, ih,
      Bool.and_assoc]

/-- Scanning a text `N/D` whose two parts the loops consume whole. -/
theorem scan_fraction_text (N D : List Char)
    (hN : scanned_whole false N = true) (hD : scanned_whole (flag_after false N) D = true) :
    numerator_text (N ++ '/' :: D) = N ∧ denominator_text (N ++ '/' :: D) = some D
      ∧ unconsumed (N ++ '/' :: D) = [] := by
  have h1 : scan (N ++ '/' :: D) false [] = ⟨N, flag_after false N, '/' :: D⟩ := by
    rw [scan_whole N false [] _ hN, scan_stops_at_slash]
    simp
  have h2 : scan D (flag_after false N) [] = ⟨D, flag_after (flag_after false N) D, []⟩ := by
    have := scan_whole D (flag_after false N) [] [] hD
    simpa [scan] using this
  simp [numerator_text, denominator_text, unconsumed, h1, h2, deref]

/-- Scanning a text `N` without `/` that the loop consumes whole. -/
theorem scan_integer_text (N : List Char) (hN : scanned_whole false N = true) :
    numerator_text N = N ∧ denominator_text N = none ∧ unconsumed N = [] := by
  have h1 : scan N false [] = ⟨N, flag_after false N, []⟩ := by
    have := scan_whole N false [] [] hN
    simpa [scan] using this
  have hne : NUL ≠ '/' := by decide
  simp [numerator_text, denominator_text, unconsumed, h1, deref, hne]

/-! ## Literals are consumed whole -/

theorem digit_not_hex_letter (c : Char) (h : is_digit c = true) : is_hex_letter c = false := by
  unfold is_digit at h
  rw [Bool.and_eq_true, decide_eq_true_eq, decide_eq_true_eq] at h
  unfold is_hex_letter
  rw [Bool.or_eq_false_iff, Bool.and_eq_false_iff, Bool.and_eq_false_iff,
    decide_eq_false_iff_not, decide_eq_false_iff_not, decide_eq_false_iff_not,
    decide_eq_false_iff_not]
  refine ⟨Or.inl ?_, Or.inl ?_⟩
  · intro h2
    exact absurd (le_trans h2 h.2) (by decide)
  · intro h2
    exact absurd (le_trans h2 h.2) (by decide)

theorem hex_letters_follow_x_true (a : List Char) : hex_letters_follow_x true a = true := by
  induction a with
  | nil => rfl
  | cons c t ih =>
    have hn : next_flag c true = true := by simp [next_flag]
    rw [hex_letters_follow_x, hn, ih]
    simp

theorem hex_letters_follow_x_digits (a : List Char) (ha : ∀ c ∈ a, is_digit c = true) :
    ∀ h : Bool, hex_letters_follow_x h a = true := by
  induction a with
  | nil => intro h; rfl
  | cons c t ih =>
    intro h
    rw [hex_letters_follow_x, digit_not_hex_letter c (ha c (List.mem_cons_self _ _)),
      ih (fun c' hc' => ha c' (List.mem_cons_of_mem _ hc'))]
    simp

theorem integer_literal_grammar (N : List Char) (hN : integer_literal N) :
    grammar_integer N := by
  obtain ⟨sign, pre, digits, hs, hsign, hne, hd⟩ := hN
  refine ⟨sign, pre, digits, hs, hsign, ?_, hne, ?_⟩
  · rcases hd with ⟨hp, _⟩ | ⟨hp, _⟩
    · exact Or.inl hp
    · exact Or.inr hp
  · rcases hd with ⟨_, hd⟩ | ⟨_, hd⟩
    · intro c hc
      simp [is_hex_digit, hd c hc]
    · exact hd

theorem grammar_integer_alphabet (N : List Char) (hN : grammar_integer N) :
    ∀ c ∈ N, in_scan_alphabet c = true := by
  obtain ⟨sign, pre, digits, hs, hsign, hpre, _, hd⟩ := hN
  subst hs
  intro c hc
  rw [List.mem_append, List.mem_append] at hc
  rcases hc with (hc | hc) | hc
  · rcases hsign with h | h | h <;> subst h
    · exact absurd hc (List.not_mem_nil c)
    · rw [List.mem_singleton] at hc; subst hc; decide
    · rw [List.mem_singleton] at hc; subst hc; decide
  · rcases hpre with h | h | h <;> subst h
    · exact absurd hc (List.not_mem_nil c)
    · simp only [List.mem_cons, List.mem_singleton, List.not_mem_nil, or_false] at hc
      rcases hc with hc | hc <;> subst hc <;> decide
    · simp only [List.mem_cons, List.mem_singleton, List.not_mem_nil, or_false] at hc
      rcases hc with hc | hc <;> subst hc <;> decide
  · unfold in_scan_alphabet
    rw [hd c hc]
    simp

theorem integer_literal_follow_x (N : List Char) (hN : integer_literal N) (h : Bool) :
    hex_letters_follow_x h N = true := by
  obtain ⟨sign, pre, digits, hs, hsign, _, hd⟩ := hN
  subst hs
  have hsg : hex_letters_follow_x h sign = true := by
    rcases hsign with e | e | e <;> subst e <;> cases h <;> decide
  rw [List.append_assoc, hex_letters_follow_x_append, hsg, Bool.true_and,
    hex_letters_follow_x_append]
  rcases hd with ⟨hp, hd⟩ | ⟨hp, hd⟩
  · subst hp
    rw [hex_letters_follow_x_digits digits hd]
    rfl
  · have hf : flag_after (flag_after h sign) pre = true := by
      rcases hp with e | e <;> subst e <;> simp [flag_after, next_flag]
    have hpf : hex_letters_follow_x (flag_after h sign) pre = true := by
      rcases hp with e | e <;> subst e <;> cases (flag_after h sign) <;> decide
    rw [hf, hpf, hex_letters_follow_x_true]
    rfl

theorem integer_literal_scanned_whole (N : List Char) (hN : integer_literal N) (h : Bool) :
    scanned_whole h N = true :=
  scanned_whole_of_alphabet N h
    (grammar_integer_alphabet N (integer_literal_grammar N hN))
    (integer_literal_follow_x N hN h)

theorem reduce_den_one (n : Int) : rational_type.reduce n 1 = ⟨n, 1⟩ := by
  simp [rational_type.reduce]

theorem parsed_components_fraction (B : IntBackend) (N D : List Char) (n d : Int)
    (hN : scanned_whole false N = true) (hD : scanned_whole (flag_after false N) D = true)
    (hn : B.assign N = some n) (hd : B.assign D = some d) :
    parsed_components B (N ++ '/' :: D) = some (n, d) := by
  obtain ⟨h1, h2, _⟩ := scan_fraction_text N D hN hD
  simp [parsed_components, h1, h2, hn, hd]

theorem parsed_components_integer (B : IntBackend) (N : List Char) (n : Int)
    (hN : scanned_whole false N = true) (hn : B.assign N = some n) :
    parsed_components B N = some (n, 1) := by
  obtain ⟨h1, h2, _⟩ := scan_integer_text N hN
  simp [parsed_components, h1, h2, hn]

theorem finish_assign_consumed (self : rational_adaptor) (p : List Char) (v1 v2 : Int)
    (hv : v2 ≠ 0) :
    self.finish_assign p [] v1 v2 = ⟨⟨rational_type.reduce v1 v2⟩, none⟩ := by
  simp [finish_assign, deref, data_assign_ok _ _ _ hv]

theorem assign_fraction_text (B : IntBackend) (self : rational_adaptor) (N D : List Char)
    (n d : Int) (hN : scanned_whole false N = true)
    (hD : scanned_whole (flag_after false N) D = true)
    (hn : B.assign N = some n) (hd : B.assign D = some d) (hd0 : d ≠ 0) :
    operator_assign_cstr B self (N ++ '/' :: D) = ⟨⟨rational_type.reduce n d⟩, none⟩ := by
  rw [operator_assign_cstr_eq, parsed_components_fraction B N D n d hN hD hn hd]
  simp only [(scan_fraction_text N D hN hD).2.2]
  exact finish_assign_consumed _ _ _ _ hd0

theorem assign_integer_text (B : IntBackend) (self : rational_adaptor) (N : List Char)
    (n : Int) (hN : scanned_whole false N = true) (hn : B.assign N = some n) :
    operator_assign_cstr B self N = ⟨⟨⟨n, 1⟩⟩, none⟩ := by
  rw [operator_assign_cstr_eq, parsed_components_integer B N n hN hn]
  simp only [(scan_integer_text N hN).2.2]
  rw [finish_assign_consumed _ _ _ _ one_ne_zero, reduce_den_one]

/-- C5: for integer literals `N` and `D` (optional sign, then decimal digits or `0x`/`0X`
and hexadecimal digits) that the backend reads as the integers `n` and `d`, with `d ≠ 0`,
parsing the text `N/D` yields numerator `sign(d) * n / g` and denominator `|d| / g` with
`g = gcd(|n|, |d|)`, and parsing the text `N` alone yields numerator `n`, denominator `1`. -/
theorem parse_yields_reduced_fraction (B : IntBackend) (self : rational_adaptor)
    (N D : List Char) (n d : Int)
    (hN : integer_literal N) (hD : integer_literal D)
    (hn : B.assign N = some n) (hd : B.assign D = some d) (hd0 : d ≠ 0) :
    operator_assign_cstr B self (N ++ '/' :: D)
        = ⟨⟨⟨Int.sign d * n / (Int.gcd n d : Int), |d| / (Int.gcd n d : Int)⟩⟩, none⟩
      ∧ operator_assign_cstr B self N = ⟨⟨⟨n, 1⟩⟩, none⟩ := by
  have hNw := integer_literal_scanned_whole N hN false
  have hDw := integer_literal_scanned_whole D hD (flag_after false N)
  constructor
  · rw [assign_fraction_text B self N D n d hNw hDw hn hd hd0]
    obtain ⟨e1, e2⟩ := reduce_formula n d hd0
    rw [← e1, ← e2]
  · exact assign_integer_text B self N n hNw hn

/-- Witness for C5: with the decimal backend the text `3/6` is parsed to numerator 1,
denominator 2, and the text `3` to `3/1`. -/
theorem parse_yields_reduced_fraction_witness :
    operator_assign_cstr decimal_backend rational_adaptor.default "3/6".toList
        = ⟨⟨⟨1, 2⟩⟩, none⟩
      ∧ operator_assign_cstr decimal_backend rational_adaptor.default "3".toList
        = ⟨⟨⟨3, 1⟩⟩, none⟩ := by
  have h := parse_yields_reduced_fraction decimal_backend rational_adaptor.default
    "3".toList "6".toList 3 6
    ⟨[], [], ['3'], rfl, Or.inl rfl, by decide, Or.inl ⟨rfl, by decide⟩⟩
    ⟨[], [], ['6'], rfl, Or.inl rfl, by decide, Or.inl ⟨rfl, by decide⟩⟩
    (by decide) (by decide) (by decide)
  exact ⟨h.1.trans (by decide), h.2⟩

/-! ## Formatting -/

theorem str_eq (B : IntBackend) (v : rational_adaptor) (digits : Int) (f : Nat) :
    v.str B digits f =
      if v.data.den ≠ 1 then
        B.str v.data.num digits f ++ '/' :: B.str v.data.den digits f
      else B.str v.data.num digits f := by
  unfold rational_adaptor.str
  split <;> simp

/-- C6: `str(digits, flags)` is the backend's text of the numerator under the same
`(digits, flags)` followed by `/` and the backend's text of the denominator exactly when the
denominator is not 1; when the denominator is 1 it is the numerator text alone, which holds
no `/` as long as the backend's integer text holds none. -/
theorem str_shape (B : IntBackend) (v : rational_adaptor) (digits : Int) (f : Nat) :
    (v.data.den ≠ 1 ↔
        v.str B digits f = B.str v.data.num digits f ++ ['/'] ++ B.str v.data.den digits f)
    ∧ (v.data.den = 1 → v.str B digits f = B.str v.data.num digits f)
    ∧ (v.data.den = 1 → '/' ∉ B.str v.data.num digits f → '/' ∉ v.str B digits f) := by
  refine ⟨⟨?_, ?_⟩, ?_, ?_⟩
  · intro h
    rw [str_eq, if_pos h]
    simp
  · intro h hden
    rw [str_eq, if_neg (not_not.mpr hden)] at h
    have hl := congrArg List.length h
    simp at hl
  · intro hden
    rw [str_eq, if_neg (not_not.mpr hden)]
  · intro hden hno
    rw [str_eq, if_neg (not_not.mpr hden)]
    exact hno

/-- Witness for C6: with the decimal backend the value parsed from `0x10/0x4` formats as
`4`, with no `/`, and the value parsed from `3/6` formats as `1/2`. -/
theorem str_shape_witness :
    (operator_assign_cstr decimal_backend rational_adaptor.default "0x10/0x4".toList).self.str
        decimal_backend 0 0 = "4".toList
    ∧ (operator_assign_cstr decimal_backend rational_adaptor.default "3/6".toList).self.str
        decimal_backend 0 0 = "1/2".toList
    ∧ '/' ∉ (operator_assign_cstr decimal_backend rational_adaptor.default
        "0x10/0x4".toList).self.str decimal_backend 0 0 :=
  ⟨by decide, by decide,
    (str_shape decimal_backend
      (operator_assign_cstr decimal_backend rational_adaptor.default "0x10/0x4".toList).self
      0 0).2.2 (by decide) (by decide)⟩

/-! ## Round trip of parse after format -/

theorem decimal_text_literal (t : List Char) (h : decimal_text t) : integer_literal t := by
  obtain ⟨sign, digits, ht, hs, hne, hd⟩ := h
  refine ⟨sign, [], digits, by simpa using ht, ?_, hne, Or.inl ⟨rfl, hd⟩⟩
  rcases hs with e | e
  · exact Or.inl e
  · exact Or.inr (Or.inl e)

/-- C7: for a canonical Fraction `v`, when the backend writes numerator and denominator as
plain decimal text (an optional `-` and decimal digits) and its parser reads each of the
two texts back as the integer written, assigning the text `v.str(digits, f)` succeeds and
leaves a Fraction with the numerator and the denominator of `v`. -/
theorem parse_after_format_round_trip (B : IntBackend) (self v : rational_adaptor)
    (digits : Int) (f : Nat)
    (hv : canonical v.data)
    (hnum_text : decimal_text (B.str v.data.num digits f))
    (hden_text : decimal_text (B.str v.data.den digits f))
    (hnum : B.assign (B.str v.data.num digits f) = some v.data.num)
    (hden : B.assign (B.str v.data.den digits f) = some v.data.den) :
    operator_assign_cstr B self (v.str B digits f) = ⟨v, none⟩ := by
  have hNw := integer_literal_scanned_whole _ (decimal_text_literal _ hnum_text) false
  have hDw := integer_literal_scanned_whole _ (decimal_text_literal _ hden_text)
    (flag_after false (B.str v.data.num digits f))
  rw [str_eq]
  by_cases h1 : v.data.den = 1
  · rw [if_neg (not_not.mpr h1), assign_integer_text B self _ _ hNw hnum]
    cases v with
    | mk m =>
      cases m with
      | mk n d =>
        simp only [rational_adaptor.data] at h1
        subst h1
        rfl
  · rw [if_pos h1,
      assign_fraction_text B self _ _ _ _ hNw hDw hnum hden (canonical_den_ne_zero _ hv),
      reduce_of_canonical _ hv]
    rfl

/-- Witness for C7: with the decimal backend, `-7/3`, `0/1` and `5/1` survive the round
trip. -/
theorem parse_after_format_round_trip_witness :
    operator_assign_cstr decimal_backend rational_adaptor.default
        (rational_adaptor.str decimal_backend ⟨⟨-7, 3⟩⟩ 0 0) = ⟨⟨⟨-7, 3⟩⟩, none⟩
    ∧ operator_assign_cstr decimal_backend ⟨⟨2, 9⟩⟩
        (rational_adaptor.str decimal_backend ⟨⟨0, 1⟩⟩ 0 0) = ⟨⟨⟨0, 1⟩⟩, none⟩ :=
  ⟨parse_after_format_round_trip decimal_backend rational_adaptor.default ⟨⟨-7, 3⟩⟩ 0 0
      (by decide)
      ⟨['-'], ['7'], by decide, Or.inr rfl, by decide, by decide⟩
      ⟨[], ['3'], by decide, Or.inl rfl, by decide, by decide⟩
      (by decide) (by decide),
   parse_after_format_round_trip decimal_backend ⟨⟨2, 9⟩⟩ ⟨⟨0, 1⟩⟩ 0 0
      (by decide)
      ⟨[], ['0'], by decide, Or.inl rfl, by decide, by decide⟩
      ⟨[], ['1'], by decide, Or.inl rfl, by decide, by decide⟩
      (by decide) (by decide)⟩

/-! ## The input grammar against the scanner -/

theorem finish_assign_consumed_thrown (self : rational_adaptor) (p : List Char) (v1 v2 : Int)
    (msg : List Char) :
    (self.finish_assign p [] v1 v2).thrown ≠ some (Exn.runtime_error msg) := by
  simp [finish_assign, deref, data_assign_eq]

theorem no_parse_error_of_consumed (B : IntBackend) (self : rational_adaptor) (s : List Char)
    (hs : unconsumed s = []) (msg : List Char) :
    (operator_assign_cstr B self s).thrown ≠ some (Exn.runtime_error msg) := by
  rw [operator_assign_cstr_eq]
  cases hp : parsed_components B s with
  | none => simp
  | some v =>
    obtain ⟨v1, v2⟩ := v
    simp only [hs]
    exact finish_assign_consumed_thrown self s v1 v2 msg

theorem hex_letters_follow_x_slash (h : Bool) (D : List Char) :
    hex_letters_follow_x h ('/' :: D) = hex_letters_follow_x h D := by
  have h1 : is_hex_letter '/' = false := by decide
  have h2 : next_flag '/' h = h := by cases h <;> decide
  rw [hex_letters_follow_x, h1, h2]
  simp


theorem hex_letter_not_scanned (c : Char) (hc : is_hex_letter c = true) :
    scan_cond c false = false := by
  have hx : (c == 'x') = false := by
    rw [beq_eq_false_iff_ne]; intro e; subst e; exact absurd hc (by decide)
  have hX : (c == 'X') = false := by
    rw [beq_eq_false_iff_ne]; intro e; subst e; exact absurd hc (by decide)
  have hm : (c == '-') = false := by
    rw [beq_eq_false_iff_ne]; intro e; subst e; exact absurd hc (by decide)
  have hp : (c == '+') = false := by
    rw [beq_eq_false_iff_ne]; intro e; subst e; exact absurd hc (by decide)
  have hd : (decide ('0' ≤ c) && decide (c ≤ '9')) = false := by
    cases hdig : (decide ('0' ≤ c) && decide (c ≤ '9')) with
    | false => rfl
    | true =>
      have := digit_not_hex_letter c hdig
      rw [hc] at this
      exact absurd this (by decide)
  unfold scan_cond
  rw [hx, hX, hm, hp, hd]
  simp

theorem follow_x_of_scanned_whole (a : List Char) : ∀ (h : Bool),
    scanned_whole h a = true → hex_letters_follow_x h a = true := by
  induction a with
  | nil => intro h _; rfl
  | cons c t ih =>
    intro h hw
    rw [scanned_whole, Bool.and_eq_true] at hw
    rw [hex_letters_follow_x, Bool.and_eq_true, Bool.or_eq_true, Bool.not_eq_true']
    refine ⟨?_, ih _ hw.2⟩
    cases h with
    | true => exact Or.inr rfl
    | false =>
      left
      cases hl : is_hex_letter c with
      | false => rfl
      | true =>
        have := hex_letter_not_scanned c hl
        rw [hw.1] at this
        exact absurd this (by decide)

theorem scan_stuck (a : List Char) : ∀ (h : Bool) (s1 rest : List Char),
    (∀ c ∈ a, in_scan_alphabet c = true) → scanned_whole h a = false →
    (scan (a ++ rest) h s1).s ≠ [] ∧ deref (scan (a ++ rest) h s1).s ≠ '/' := by
  induction a with
  | nil => intro h s1 rest _ hw; exact absurd hw (by simp [scanned_whole])
  | cons c t ih =>
    intro h s1 rest hal hw
    rw [List.cons_append, scan]
    by_cases hc : scan_cond c h = true
    · rw [if_pos hc]
      rw [scanned_whole, hc, Bool.true_and] at hw
      exact ih _ _ _ (fun c' hc' => hal c' (List.mem_cons_of_mem _ hc')) hw
    · rw [if_neg hc]
      refine ⟨by simp, ?_⟩
      intro e
      have e' : c = '/' := by simpa [deref] using e
      have := hal c (List.mem_cons_self _ _)
      rw [e'] at this
      exact absurd this (by decide)

theorem scanned_whole_of_consumed_integer (s : List Char)
    (hal : ∀ c ∈ s, in_scan_alphabet c = true) (hs : unconsumed s = []) :
    scanned_whole false s = true := by
  cases hw : scanned_whole false s with
  | true => rfl
  | false =>
    have hst := scan_stuck s false [] [] hal hw
    rw [List.append_nil] at hst
    have : unconsumed s = (scan s false []).s := by
      unfold unconsumed
      simp only [if_neg hst.2]
    rw [this] at hs
    exact absurd hs hst.1

theorem scanned_whole_of_consumed_fraction (N D : List Char)
    (hN : ∀ c ∈ N, in_scan_alphabet c = true) (hD : ∀ c ∈ D, in_scan_alphabet c = true)
    (hs : unconsumed (N ++ '/' :: D) = []) :
    scanned_whole false N = true ∧ scanned_whole (flag_after false N) D = true := by
  cases hw : scanned_whole false N with
  | false =>
    have hst := scan_stuck N false [] ('/' :: D) hN hw
    have : unconsumed (N ++ '/' :: D) = (scan (N ++ '/' :: D) false []).s := by
      unfold unconsumed
      simp only [if_neg hst.2]
    rw [this] at hs
    exact absurd hs hst.1
  | true =>
    refine ⟨rfl, ?_⟩
    have h1 : scan (N ++ '/' :: D) false [] = ⟨N, flag_after false N, '/' :: D⟩ := by
      rw [scan_whole N false [] _ hw, scan_stops_at_slash]
      simp
    cases hw2 : scanned_whole (flag_after false N) D with
    | true => rfl
    | false =>
      have hst := scan_stuck D (flag_after false N) [] [] hD hw2
      rw [List.append_nil] at hst
      have : unconsumed (N ++ '/' :: D) = (scan D (flag_after false N) []).s := by
        simp [unconsumed, h1, deref]
      rw [this] at hs
      exact absurd hs hst.1

theorem follow_x_of_consumed (s : List Char) (hg : matches_grammar s)
    (hs : unconsumed s = []) : hex_letters_follow_x false s = true := by
  rcases hg with hN | ⟨N, D, he, hN, hD⟩
  · exact follow_x_of_scanned_whole s false
      (scanned_whole_of_consumed_integer s (grammar_integer_alphabet s hN) hs)
  · subst he
    obtain ⟨h1, h2⟩ := scanned_whole_of_consumed_fraction N D
      (grammar_integer_alphabet N hN) (grammar_integer_alphabet D hD) hs
    rw [hex_letters_follow_x_append, hex_letters_follow_x_slash,
      follow_x_of_scanned_whole N false h1, follow_x_of_scanned_whole D _ h2]
    rfl
/-- The claim C8 as stated fails: `ff` and `1/a` match the stated grammar, yet the scanner
consumes nothing of `ff` and leaves the `a` of `1/a`, and text assignment throws the
trailing-characters parse error for both. -/
theorem grammar_text_not_consumed :
    matches_grammar "ff".toList
    ∧ unconsumed "ff".toList = "ff".toList
    ∧ operator_assign_cstr decimal_backend rational_adaptor.default "ff".toList
        = ⟨rational_adaptor.default, some (Exn.runtime_error
            "Could not parse the string \"ff\" as a valid rational number.".toList)⟩
    ∧ matches_grammar "1/a".toList
    ∧ unconsumed "1/a".toList = "a".toList
    ∧ operator_assign_cstr decimal_backend rational_adaptor.default "1/a".toList
        = ⟨rational_adaptor.default, some (Exn.runtime_error
            "Could not parse the string \"1/a\" as a valid rational number.".toList)⟩ := by
  refine ⟨?_, by decide, by decide, ?_, by decide, by decide⟩
  · exact Or.inl ⟨[], [], ['f', 'f'], rfl, Or.inl rfl, Or.inl rfl, by decide, by decide⟩
  · exact Or.inr ⟨['1'], ['a'], rfl,
      ⟨[], [], ['1'], rfl, Or.inl rfl, Or.inl rfl, by decide, by decide⟩,
      ⟨[], [], ['a'], rfl, Or.inl rfl, Or.inl rfl, by decide, by decide⟩⟩

/-- C8, amended: a string that matches the stated grammar is consumed completely by the
scanner exactly when each of its hexadecimal letters has an `x` or `X` somewhere before it;
for such a string text assignment does not throw the trailing-characters parse error,
whatever the backend. -/
theorem grammar_text_consumed_iff_hex_follows_x (s : List Char) (hg : matches_grammar s) :
    (unconsumed s = [] ↔ hex_letters_follow_x false s = true)
      ∧ (hex_letters_follow_x false s = true →
          ∀ (B : IntBackend) (self : rational_adaptor) (msg : List Char),
            (operator_assign_cstr B self s).thrown ≠ some (Exn.runtime_error msg)) := by
  have hcons : hex_letters_follow_x false s = true → unconsumed s = [] := by
    intro hx
    rcases hg with hN | ⟨N, D, hs, hN, hD⟩
    · exact (scan_integer_text s
        (scanned_whole_of_alphabet s false (grammar_integer_alphabet s hN) hx)).2.2
    · subst hs
      rw [hex_letters_follow_x_append, Bool.and_eq_true, hex_letters_follow_x_slash] at hx
      exact (scan_fraction_text N D
        (scanned_whole_of_alphabet N false (grammar_integer_alphabet N hN) hx.1)
        (scanned_whole_of_alphabet D _ (grammar_integer_alphabet D hD) hx.2)).2.2
  exact ⟨⟨follow_x_of_consumed s hg, hcons⟩,
    fun hx B self msg => no_parse_error_of_consumed B self s (hcons hx) msg⟩

/-- Witness for amended C8: the text "minus 0x1F over 0X2b" matches the grammar, has its
hexadecimal letters after an `x`, and is consumed completely. -/
theorem grammar_text_consumed_iff_hex_follows_x_witness :
    (unconsumed "-0x1F/0X2b".toList = []
        ↔ hex_letters_follow_x false "-0x1F/0X2b".toList = true)
      ∧ (hex_letters_follow_x false "-0x1F/0X2b".toList = true →
          ∀ (B : IntBackend) (self : rational_adaptor) (msg : List Char),
            (operator_assign_cstr B self "-0x1F/0X2b".toList).thrown
              ≠ some (Exn.runtime_error msg)) :=
  grammar_text_consumed_iff_hex_follows_x "-0x1F/0X2b".toList
    (Or.inr ⟨"-0x1F".toList, "0X2b".toList, rfl,
      ⟨['-'], ['0', 'x'], ['1', 'F'], rfl, Or.inr (Or.inl rfl), Or.inr (Or.inl rfl),
        by decide, by decide⟩,
      ⟨[], ['0', 'X'], ['2', 'b'], rfl, Or.inl rfl, Or.inr (Or.inr rfl),
        by decide, by decide⟩⟩)

/-! ## A zero denominator in the text -/

theorem bit_length_aux_le (fuel : Nat) : ∀ (n p : Nat), n < 2 ^ p → bit_length_aux fuel n ≤ p := by
  induction fuel with
  | zero => intro n p _; simp [bit_length_aux]
  | succ k ih =>
    intro n p hn
    rw [bit_length_aux]
    by_cases h0 : n = 0
    · simp [h0]
    · rw [if_neg h0]
      cases p with
      | zero =>
        rw [pow_zero] at hn
        omega
      | succ q =>
        have : n / 2 < 2 ^ q := by
          rw [pow_succ] at hn
          omega
        have := ih (n / 2) q this
        omega

theorem bit_length_le (n p : Nat) (h : n < 2 ^ p) : bit_length n ≤ p :=
  bit_length_aux_le n n p h

theorem bit_length_aux_spec (fuel : Nat) : ∀ n : Nat, n ≤ fuel →
    n < 2 ^ bit_length_aux fuel n ∧ (n ≠ 0 → 2 ^ (bit_length_aux fuel n - 1) ≤ n) := by
  induction fuel with
  | zero =>
    intro n hn
    have : n = 0 := by omega
    subst this
    simp [bit_length_aux]
  | succ k ih =>
    intro n hn
    rw [bit_length_aux]
    by_cases h0 : n = 0
    · subst h0
      simp
    · rw [if_neg h0]
      have hle : n / 2 ≤ k := by omega
      obtain ⟨h1, h2⟩ := ih (n / 2) hle
      refine ⟨?_, fun _ => ?_⟩
      · rw [pow_succ]
        omega
      · rw [Nat.add_sub_cancel]
        by_cases hh : n / 2 = 0
        · have hz : bit_length_aux k (n / 2) = 0 := by
            rw [hh]
            cases k <;> simp [bit_length_aux]
          rw [hz, pow_zero]
          omega
        · have h3 := h2 hh
          have hpos : bit_length_aux k (n / 2) ≠ 0 := by
            intro e
            rw [e, pow_zero] at h1
            omega
          have e2 : 2 ^ bit_length_aux k (n / 2)
              = 2 ^ (bit_length_aux k (n / 2) - 1) * 2 := by
            rw [← pow_succ]
            congr 1
            omega
          rw [e2]
          omega

/-- The fraction `std::frexp` returns for a non-zero value, `mant / 2 ^ b` with `b` the bit
length of `|mant|`, has magnitude in `[1/2, 1)`. -/
theorem frexp_fraction_normalised (i : FloatVal) (h : i.mant ≠ 0) :
    (frexp i).1.mant = i.mant
      ∧ (frexp i).1.exp = -(bit_length i.mant.natAbs : Int)
      ∧ (frexp i).2 = i.exp + bit_length i.mant.natAbs
      ∧ 2 ^ (bit_length i.mant.natAbs - 1) ≤ i.mant.natAbs
      ∧ i.mant.natAbs < 2 ^ bit_length i.mant.natAbs := by
  have hn : i.mant.natAbs ≠ 0 := by simpa using h
  obtain ⟨h1, h2⟩ := bit_length_aux_spec i.mant.natAbs i.mant.natAbs (le_refl _)
  unfold frexp
  rw [if_neg h]
  exact ⟨rfl, rfl, rfl, h2 hn, h1⟩

theorem float_decompose_value (p : Nat) (x : FloatVal) (hx : x.mant.natAbs < 2 ^ p) :
    (integer_from_float (float_decompose p x).1 : ℚ) * (2 : ℚ) ^ (float_decompose p x).2
      = (x.mant : ℚ) * (2 : ℚ) ^ x.exp := by
  by_cases h0 : x.mant = 0
  · rw [float_decompose_zero p x h0, h0]
    simp
  · have hb := bit_length_le _ _ hx
    have hexp : (0 : Int) ≤ -(bit_length x.mant.natAbs : Int) + (p : Int) := by omega
    have hm : integer_from_float (float_decompose p x).1
        = x.mant * 2 ^ (-(bit_length x.mant.natAbs : Int) + (p : Int)).toNat := by
      simp only [float_decompose, frexp, if_neg h0, ldexp, integer_from_float, if_pos hexp]
    have he : (float_decompose p x).2 = x.exp + bit_length x.mant.natAbs - p := by
      simp only [float_decompose, frexp, if_neg h0]
    rw [hm, he]
    push_cast
    have h2 : (2 : ℚ) ≠ 0 := by norm_num
    rw [mul_assoc, ← zpow_natCast, Int.toNat_of_nonneg hexp, ← zpow_add₀ h2]
    congr 2
    ring

theorem reduce_value_rat (n d : Int) (hd : d ≠ 0) :
    ((rational_type.reduce n d).num : ℚ) / ((rational_type.reduce n d).den : ℚ)
      = (n : ℚ) / (d : ℚ) := by
  have hden : (rational_type.reduce n d).den ≠ 0 :=
    canonical_den_ne_zero _ (reduce_canonical n d hd)
  have hv := reduce_value n d
  rw [div_eq_div_iff (by exact_mod_cast hden) (by exact_mod_cast hd)]
  exact_mod_cast hv

/-- C10: for every finite value `x = mant * 2 ^ exp` of a format with `p` significand digits
(`|mant| < 2 ^ p`), the decomposition of lines 90-92 is exact (`f * 2 ^ e = x` with `f` an
integer), assignment does not throw, and the assigned Fraction has rational value exactly
`x`: numerator `f * 2 ^ e` and denominator 1 when `e ≥ 0`, and `f / 2 ^ (-e)` reduced to
lowest terms when `e < 0`. -/
theorem float_assignment_exact (p : Nat) (self : rational_adaptor) (x : FloatVal)
    (hx : x.mant.natAbs < 2 ^ p) :
    ∃ r : rational_type, operator_assign_float p self x = ⟨⟨r⟩, none⟩
      ∧ (r.num : ℚ) / (r.den : ℚ) = (x.mant : ℚ) * (2 : ℚ) ^ x.exp
      ∧ (integer_from_float (float_decompose p x).1 : ℚ) * (2 : ℚ) ^ (float_decompose p x).2
          = (x.mant : ℚ) * (2 : ℚ) ^ x.exp
      ∧ (0 ≤ (float_decompose p x).2 →
          r.num = integer_from_float (float_decompose p x).1
                    * 2 ^ (float_decompose p x).2.toNat
            ∧ r.den = 1)
      ∧ ((float_decompose p x).2 < 0 →
          r = rational_type.reduce (integer_from_float (float_decompose p x).1)
                (2 ^ (-(float_decompose p x).2).toNat)
            ∧ canonical r) := by
  have hval := float_decompose_value p x hx
  have h2 : (2 : ℚ) ≠ 0 := by norm_num
  refine ⟨_, operator_assign_float_eq p self x, ?_, hval, ?_, ?_⟩
  · rw [← hval]
    rcases lt_trichotomy (float_decompose p x).2 0 with hneg | hz | hpos
    · have hn : ¬ 0 < (float_decompose p x).2 := by omega
      rw [if_neg hn, if_pos hneg, reduce_value_rat _ _ (pow_ne_zero _ (by norm_num))]
      have hnn : (0 : Int) ≤ -(float_decompose p x).2 := by omega
      push_cast
      rw [div_eq_mul_inv, ← zpow_natCast, Int.toNat_of_nonneg hnn, ← zpow_neg, neg_neg]
    · have hn : ¬ 0 < (float_decompose p x).2 := by omega
      have hn2 : ¬ (float_decompose p x).2 < 0 := by omega
      rw [if_neg hn, if_neg hn2, reduce_den_one, hz]
      simp
    · have hn2 : ¬ (float_decompose p x).2 < 0 := by omega
      rw [if_pos hpos, if_neg hn2, reduce_den_one]
      push_cast
      rw [← zpow_natCast, Int.toNat_of_nonneg (le_of_lt hpos)]
      simp
  · intro hnonneg
    have hn2 : ¬ (float_decompose p x).2 < 0 := by omega
    rw [if_neg hn2, reduce_den_one]
    by_cases hpos : 0 < (float_decompose p x).2
    · rw [if_pos hpos]
      exact ⟨rfl, rfl⟩
    · have hz : (float_decompose p x).2 = 0 := by omega
      rw [if_neg hpos, hz]
      simp
  · intro hneg
    have hn : ¬ 0 < (float_decompose p x).2 := by omega
    rw [if_neg hn, if_pos hneg]
    exact ⟨rfl, reduce_canonical _ _ (pow_ne_zero _ (by norm_num))⟩

/-- Witness for C10: the double nearest to one third, `6004799503160661 * 2 ^ (-54)`, is
assigned exactly. -/
theorem float_assignment_exact_witness :
    ∃ r : rational_type,
      rational_adaptor.operator_assign_float 53 rational_adaptor.default
          ⟨6004799503160661, -54⟩ = ⟨⟨r⟩, none⟩
      ∧ (r.num : ℚ) / (r.den : ℚ) = ((6004799503160661 : Int) : ℚ) * (2 : ℚ) ^ (-54 : Int) := by
  obtain ⟨r, h1, h2, _⟩ := float_assignment_exact 53 rational_adaptor.default
    ⟨6004799503160661, -54⟩ (by decide)
  exact ⟨r, h1, h2⟩

/-! ## Comparison -/

theorem compare_eq_sign (a b : rational_adaptor) :
    a.compare b = Int.sign (a.data.num * b.data.den - b.data.num * a.data.den) := by
  unfold rational_adaptor.compare rational_type.gt rational_type.lt rational_adaptor.data
  rcases lt_trichotomy (a.m_value.num * b.m_value.den) (b.m_value.num * a.m_value.den)
    with h | h | h
  · have h1 : ¬ b.m_value.num * a.m_value.den < a.m_value.num * b.m_value.den := by omega
    have h2 : a.m_value.num * b.m_value.den - b.m_value.num * a.m_value.den < 0 := by omega
    simp [h, h1, Int.sign_eq_neg_one_of_neg h2]
  · have h1 : ¬ b.m_value.num * a.m_value.den < a.m_value.num * b.m_value.den := by omega
    have h3 : ¬ a.m_value.num * b.m_value.den < b.m_value.num * a.m_value.den := by omega
    have h2 : a.m_value.num * b.m_value.den - b.m_value.num * a.m_value.den = 0 := by omega
    simp [h1, h3, h2]
  · have h2 : 0 < a.m_value.num * b.m_value.den - b.m_value.num * a.m_value.den := by omega
    simp [h, Int.sign_eq_one_of_pos h2]

theorem value_lt_iff (a b : rational_type) (ha : 0 < a.den) (hb : 0 < b.den) :
    a.value < b.value ↔ a.num * b.den < b.num * a.den := by
  unfold rational_type.value
  have ha' : (0 : ℚ) < (a.den : ℚ) := by exact_mod_cast ha
  have hb' : (0 : ℚ) < (b.den : ℚ) := by exact_mod_cast hb
  rw [div_lt_div_iff₀ ha' hb']
  exact_mod_cast Iff.rfl

theorem value_eq_iff (a b : rational_type) (ha : 0 < a.den) (hb : 0 < b.den) :
    a.value = b.value ↔ a.num * b.den = b.num * a.den := by
  unfold rational_type.value
  have ha' : (a.den : ℚ) ≠ 0 := by exact_mod_cast (ne_of_gt ha)
  have hb' : (b.den : ℚ) ≠ 0 := by exact_mod_cast (ne_of_gt hb)
  rw [div_eq_div_iff ha' hb']
  exact_mod_cast Iff.rfl

theorem canonical_eq_of_cross (a b : rational_type) (ha : canonical a) (hb : canonical b)
    (h : a.num * b.den = b.num * a.den) : a = b := by
  obtain ⟨hda, hga⟩ := ha
  obtain ⟨hdb, hgb⟩ := hb
  have hcoa : IsCoprime a.den a.num := by
    rw [Int.isCoprime_iff_gcd_eq_one]
    rw [Int.gcd_comm]
    exact hga
  have hcob : IsCoprime b.den b.num := by
    rw [Int.isCoprime_iff_gcd_eq_one]
    rw [Int.gcd_comm]
    exact hgb
  have h1 : a.den ∣ b.den := by
    have : a.den ∣ a.num * b.den := by
      rw [h]
      exact Dvd.intro_left _ rfl
    exact hcoa.dvd_of_dvd_mul_left this
  have h2 : b.den ∣ a.den := by
    have : b.den ∣ b.num * a.den := by
      rw [← h]
      exact Dvd.intro_left _ rfl
    exact hcob.dvd_of_dvd_mul_left this
  have hden : a.den = b.den :=
    Int.dvd_antisymm (le_of_lt hda) (le_of_lt hdb) h1 h2
  have hnum : a.num = b.num := by
    rw [hden] at h
    exact Int.eq_of_mul_eq_mul_right (ne_of_gt hdb) h
  cases a
  cases b
  simp only at hden hnum
  rw [hden, hnum]

theorem compare_values (a b : rational_adaptor)
    (ha : 0 < a.data.den) (hb : 0 < b.data.den) :
    (a.compare b = 1 ↔ b.data.value < a.data.value)
    ∧ (a.compare b = -1 ↔ a.data.value < b.data.value)
    ∧ (a.compare b = 0 ↔ a.data.value = b.data.value) := by
  rw [compare_eq_sign, value_lt_iff _ _ hb ha, value_lt_iff _ _ ha hb, value_eq_iff _ _ ha hb,
    Int.sign_eq_one_iff_pos, Int.sign_eq_neg_one_iff_neg, Int.sign_eq_zero_iff_zero]
  refine ⟨?_, ?_, ?_⟩ <;> constructor <;> intro h <;> omega

/-- C12: for canonical Fractions `a = n1/d1` and `b = n2/d2`, `a.compare(b)` is one of
`+1`, `0`, `-1`, equals the sign of `n1*d2 - n2*d1`, is `+1` iff `a > b`, `-1` iff `a < b`
as rational numbers, and `0` iff `a` and `b` have the same numerator and denominator. -/
theorem compare_is_sign_of_difference (a b : rational_adaptor)
    (ha : canonical a.data) (hb : canonical b.data) :
    (a.compare b = 1 ∨ a.compare b = 0 ∨ a.compare b = -1)
    ∧ a.compare b = Int.sign (a.data.num * b.data.den - b.data.num * a.data.den)
    ∧ (a.compare b = 1 ↔ b.data.value < a.data.value)
    ∧ (a.compare b = -1 ↔ a.data.value < b.data.value)
    ∧ (a.compare b = 0 ↔ (a.data.num = b.data.num ∧ a.data.den = b.data.den)) := by
  obtain ⟨h1, h2, h3⟩ := compare_values a b ha.1 hb.1
  refine ⟨?_, compare_eq_sign a b, h1, h2, ?_⟩
  · rw [compare_eq_sign]
    rcases lt_trichotomy (a.data.num * b.data.den - b.data.num * a.data.den) 0 with h | h | h
    · exact Or.inr (Or.inr (Int.sign_eq_neg_one_of_neg h))
    · exact Or.inr (Or.inl (by rw [h]; rfl))
    · exact Or.inl (Int.sign_eq_one_of_pos h)
  · rw [h3, value_eq_iff _ _ ha.1 hb.1]
    constructor
    · intro h
      have := canonical_eq_of_cross _ _ ha hb h
      rw [this]
      exact ⟨rfl, rfl⟩
    · rintro ⟨e1, e2⟩
      rw [e1, e2]

/-- Witness for C12: `1/3` against `-1/2` compares as `+1`. -/
theorem compare_is_sign_of_difference_witness :
    (rational_adaptor.compare ⟨⟨1, 3⟩⟩ ⟨⟨-1, 2⟩⟩ = 1
        ∨ rational_adaptor.compare ⟨⟨1, 3⟩⟩ ⟨⟨-1, 2⟩⟩ = 0
        ∨ rational_adaptor.compare ⟨⟨1, 3⟩⟩ ⟨⟨-1, 2⟩⟩ = -1)
    ∧ rational_adaptor.compare ⟨⟨1, 3⟩⟩ ⟨⟨-1, 2⟩⟩ = 1 := by
  have h := compare_is_sign_of_difference ⟨⟨1, 3⟩⟩ ⟨⟨-1, 2⟩⟩ (by decide) (by decide)
  exact ⟨h.1, by decide⟩

theorem float_value_eq (p : Nat) (x : FloatVal) (hx : x.mant.natAbs < 2 ^ p) :
    ∃ r : rational_type,
      operator_assign_float p rational_adaptor.default x = ⟨⟨r⟩, none⟩
        ∧ canonical r ∧ r.value = (x.mant : ℚ) * (2 : ℚ) ^ x.exp := by
  have h2 : (2 : ℚ) ≠ 0 := by norm_num
  refine ⟨_, operator_assign_float_eq p rational_adaptor.default x, ?_, ?_⟩
  · apply reduce_canonical
    split
    · exact pow_ne_zero _ (by norm_num)
    · exact one_ne_zero
  · rw [← float_decompose_value p x hx]
    unfold rational_type.value
    rcases lt_trichotomy (float_decompose p x).2 0 with hneg | hz | hpos
    · have hn : ¬ 0 < (float_decompose p x).2 := by omega
      rw [if_neg hn, if_pos hneg, reduce_value_rat _ _ (pow_ne_zero _ (by norm_num))]
      have hnn : (0 : Int) ≤ -(float_decompose p x).2 := by omega
      push_cast
      rw [div_eq_mul_inv, ← zpow_natCast, Int.toNat_of_nonneg hnn, ← zpow_neg, neg_neg]
    · have hn : ¬ 0 < (float_decompose p x).2 := by omega
      have hn2 : ¬ (float_decompose p x).2 < 0 := by omega
      rw [if_neg hn, if_neg hn2, reduce_den_one, hz]
      simp
    · have hn2 : ¬ (float_decompose p x).2 < 0 := by omega
      rw [if_pos hpos, if_neg hn2, reduce_den_one]
      push_cast
      rw [← zpow_natCast, Int.toNat_of_nonneg (le_of_lt hpos)]
      simp

/-- C11: for a Fraction `a` (positive denominator) and a finite floating-point value
`x = mant * 2 ^ exp` of a format with `p` significand digits, `a.compare(x)` returns
`a.compare(r)` for the canonical Fraction `r` whose rational value is exactly `x`; it is
`+1`, `-1` or `0` as the exact rational `a` is greater than, less than or equal to `x`. -/
theorem compare_float_is_exact (p : Nat) (a : rational_adaptor) (x : FloatVal)
    (ha : 0 < a.data.den) (hx : x.mant.natAbs < 2 ^ p) :
    ∃ r : rational_adaptor, canonical r.data
      ∧ r.data.value = (x.mant : ℚ) * (2 : ℚ) ^ x.exp
      ∧ a.compare_float p x = Except.ok (a.compare r)
      ∧ (a.compare r = 1 ↔ (x.mant : ℚ) * (2 : ℚ) ^ x.exp < a.data.value)
      ∧ (a.compare r = -1 ↔ a.data.value < (x.mant : ℚ) * (2 : ℚ) ^ x.exp)
      ∧ (a.compare r = 0 ↔ a.data.value = (x.mant : ℚ) * (2 : ℚ) ^ x.exp) := by
  obtain ⟨r, hr, hc, hv⟩ := float_value_eq p x hx
  have hcmp := compare_values a ⟨r⟩ ha hc.1
  refine ⟨⟨r⟩, hc, hv, ?_, ?_, ?_, ?_⟩
  · simp [rational_adaptor.compare_float, hr]
  · rw [← hv]; exact hcmp.1
  · rw [← hv]; exact hcmp.2.1
  · rw [← hv]; exact hcmp.2.2

/-- Witness for C11: `1/3` against the double written 0.3333333333333333, which is
`6004799503160661 * 2 ^ (-54)`: the comparison returns `+1`. -/
theorem compare_float_is_exact_witness :
    rational_adaptor.compare_float 53 ⟨⟨1, 3⟩⟩ ⟨6004799503160661, -54⟩ = Except.ok 1
    ∧ ∃ r : rational_adaptor, canonical r.data
      ∧ r.data.value = ((6004799503160661 : Int) : ℚ) * (2 : ℚ) ^ (-54 : Int)
      ∧ rational_adaptor.compare_float 53 ⟨⟨1, 3⟩⟩ ⟨6004799503160661, -54⟩
          = Except.ok (rational_adaptor.compare ⟨⟨1, 3⟩⟩ r) := by
  obtain ⟨r, h1, h2, h3, _⟩ := compare_float_is_exact 53 ⟨⟨1, 3⟩⟩ ⟨6004799503160661, -54⟩
    (by decide) (by decide)
  exact ⟨rfl, r, h1, h2, h3⟩

theorem lt_int_iff (a : rational_type) (i : Int) (ha : 0 < a.den) :
    a.lt_int i = a.lt (rational_type.of_int i) := by
  unfold rational_type.lt_int rational_type.lt rational_type.of_int
  rw [decide_eq_decide, Int.ediv_lt_iff_lt_mul ha]
  simp

theorem gt_int_iff (a : rational_type) (i : Int) (ha : canonical a) :
    a.gt_int i = a.gt (rational_type.of_int i) := by
  have hpos := ha.1
  unfold rational_type.gt_int rational_type.eq_int rational_type.gt rational_type.lt_int
    rational_type.lt rational_type.of_int
  by_cases heq : a.num = i ∧ a.den = 1
  · obtain ⟨e1, e2⟩ := heq
    simp [e1, e2]
  · have hne : ¬ ((a.num == i && a.den == 1) = true) := by
      simpa using heq
    rw [if_neg hne]
    have hle : (¬ a.num / a.den < i) ↔ i * a.den ≤ a.num := by
      rw [not_lt, Int.le_ediv_iff_mul_le hpos]
    have hstrict : i * a.den ≤ a.num ↔ i * a.den < a.num * 1 := by
      rw [mul_one]
      constructor
      · intro h
        rcases lt_or_eq_of_le h with h' | h'
        · exact h'
        · exfalso
          have hb : canonical (rational_type.of_int i) := by
            simp [canonical, rational_type.of_int]
          have := canonical_eq_of_cross a (rational_type.of_int i) ha hb
            (by simp [rational_type.of_int]; omega)
          apply heq
          rw [this]
          exact ⟨rfl, rfl⟩
      · intro h; omega
    rw [← decide_not, decide_eq_decide, hle, hstrict]

/-- C13: for a canonical Fraction `a` and an integer `i`, `a.compare(i)` equals
`a.compare(F)` for the Fraction `F` with numerator `i` and denominator `1`. -/
theorem compare_int_as_fraction (a : rational_adaptor) (i : Int) (ha : canonical a.data) :
    a.compare_int i = a.compare ⟨⟨i, 1⟩⟩ := by
  unfold rational_adaptor.compare_int rational_adaptor.compare
  have h1 := gt_int_iff a.m_value i ha
  have h2 := lt_int_iff a.m_value i ha.1
  unfold rational_type.of_int at h1 h2
  rw [h1, h2]

/-- Witness for C13: `-7/2` compared with the integers `-4`, `-3` and with `5/1` against
`5`. -/
theorem compare_int_as_fraction_witness :
    rational_adaptor.compare_int ⟨⟨-7, 2⟩⟩ (-4) = rational_adaptor.compare ⟨⟨-7, 2⟩⟩ ⟨⟨-4, 1⟩⟩
    ∧ rational_adaptor.compare_int ⟨⟨-7, 2⟩⟩ (-4) = 1
    ∧ rational_adaptor.compare_int ⟨⟨-7, 2⟩⟩ (-3) = -1
    ∧ rational_adaptor.compare_int ⟨⟨5, 1⟩⟩ 5 = 0 :=
  ⟨compare_int_as_fraction ⟨⟨-7, 2⟩⟩ (-4) (by decide), by decide, by decide, by decide⟩

/-! ## Conversion to an integer -/

theorem tdiv_sign_natAbs (n d : Int) (hd : 0 < d) :
    Int.tdiv n d = Int.sign n * ((n.natAbs / d.natAbs : Nat) : Int) := by
  obtain ⟨k, hk⟩ := Int.eq_ofNat_of_zero_le (le_of_lt hd)
  subst hk
  rcases Int.natAbs_eq n with h | h
  · rw [h]
    generalize n.natAbs = m
    rcases Nat.eq_zero_or_pos m with hm | hm
    · subst hm; simp
    · have : (0 : Int) < (m : Int) := by exact_mod_cast hm
      rw [Int.sign_eq_one_of_pos this, one_mul]
      simp only [Int.natAbs_ofNat]
      rfl
  · rw [h]
    generalize n.natAbs = m
    rcases Nat.eq_zero_or_pos m with hm | hm
    · subst hm; simp
    · have : -(m : Int) < 0 := by
        have : (0 : Int) < (m : Int) := by exact_mod_cast hm
        omega
      rw [Int.sign_eq_neg_one_of_neg this, Int.neg_tdiv, neg_one_mul]
      simp only [Int.natAbs_neg, Int.natAbs_ofNat]
      rfl

/-- C14: for a canonical Fraction `n/d` and a target that holds the truncated quotient
unchanged, `eval_convert_to` returns the integer `q` with `|q| = floor(|n| / d)` and the
sign of `n`, which is `0` when `|n| < d`; `7/2` converts to `3` and `-7/2` to `-3`. -/
theorem convert_to_integer_truncates (convert_to : Int → Int) (a : rational_adaptor)
    (ha : canonical a.data)
    (hwide : convert_to (integer_divide a.data.num a.data.den)
      = integer_divide a.data.num a.data.den) :
    (eval_convert_to_integer convert_to a).natAbs = a.data.num.natAbs / a.data.den.natAbs
    ∧ eval_convert_to_integer convert_to a
        = Int.sign a.data.num * ((a.data.num.natAbs / a.data.den.natAbs : Nat) : Int)
    ∧ (a.data.num.natAbs < a.data.den.natAbs → eval_convert_to_integer convert_to a = 0)
    ∧ eval_convert_to_integer id ⟨⟨7, 2⟩⟩ = 3
    ∧ eval_convert_to_integer id ⟨⟨-7, 2⟩⟩ = -3 := by
  have hq : eval_convert_to_integer convert_to a = Int.tdiv a.data.num a.data.den := by
    unfold eval_convert_to_integer
    exact hwide
  refine ⟨?_, ?_, ?_, by decide, by decide⟩
  · rw [hq, Int.natAbs_tdiv]
    rfl
  · rw [hq]
    exact tdiv_sign_natAbs _ _ ha.1
  · intro hlt
    rw [hq, tdiv_sign_natAbs _ _ ha.1, Nat.div_eq_of_lt hlt]
    simp

/-- Witness for C14: `-7/2` converts to `-3`, not `-4`. -/
theorem convert_to_integer_truncates_witness :
    (eval_convert_to_integer id ⟨⟨-7, 2⟩⟩).natAbs = (-7 : Int).natAbs / (2 : Int).natAbs
    ∧ eval_convert_to_integer id ⟨⟨-7, 2⟩⟩ = -3
    ∧ eval_convert_to_integer id ⟨⟨-7, 2⟩⟩ ≠ -4 :=
  ⟨(convert_to_integer_truncates id ⟨⟨-7, 2⟩⟩ (by decide) rfl).1, by decide, by decide⟩

/-! ## Identity laws -/

theorem reduce_self (x : Int) (hx : x ≠ 0) : rational_type.reduce x x = ⟨1, 1⟩ := by
  have hc := reduce_canonical x x hx
  have hv := reduce_value x x
  have hb : canonical (⟨1, 1⟩ : rational_type) := by decide
  apply canonical_eq_of_cross _ _ hc hb
  have : (rational_type.reduce x x).num = (rational_type.reduce x x).den := by
    have h2 : (rational_type.reduce x x).num * x = (rational_type.reduce x x).den * x := by
      rw [hv]; ring
    exact Int.eq_of_mul_eq_mul_right hx h2
  simp [this]

/-- C15: for every canonical Fraction `a`, as equalities of the (numerator, denominator)
pair: `eval_add(a, 0)` leaves `a`, `eval_multiply(a, 1)` leaves `a`, `eval_subtract(a, a)`
leaves `0/1`, and for a non-zero `a`, `eval_divide(a, a)` returns leaving `1/1`. -/
theorem arithmetic_identity_laws (a : rational_adaptor) (ha : canonical a.data) :
    eval_add a ⟨⟨0, 1⟩⟩ = a
    ∧ eval_multiply a ⟨⟨1, 1⟩⟩ = a
    ∧ eval_subtract a a = ⟨⟨0, 1⟩⟩
    ∧ (eval_is_zero a = false → eval_divide a a = ⟨⟨⟨1, 1⟩⟩, none⟩) := by
  have hd := canonical_den_ne_zero _ ha
  have hred := reduce_of_canonical _ ha
  refine ⟨?_, ?_, ?_, ?_⟩
  · cases a with
    | mk m =>
      simp only [eval_add, rational_type.add, rational_adaptor.data] at *
      simp only [mul_one, zero_mul, add_zero, hred]
  · cases a with
    | mk m =>
      simp only [eval_multiply, rational_type.mul, rational_adaptor.data] at *
      simp only [mul_one, hred]
  · simp only [eval_subtract, rational_type.sub, sub_self]
    rw [reduce_zero_num _ (mul_ne_zero hd hd)]
  · intro hz
    have hnum : a.data.num ≠ 0 := by simpa [eval_is_zero] using hz
    rw [eval_divide_ok a a hnum, mul_comm a.data.den a.data.num,
      reduce_self _ (mul_ne_zero hnum hd)]

/-- Witness for C15, at `a = -3/4`. -/
theorem arithmetic_identity_laws_witness :
    eval_add ⟨⟨-3, 4⟩⟩ ⟨⟨0, 1⟩⟩ = ⟨⟨-3, 4⟩⟩
    ∧ eval_multiply ⟨⟨-3, 4⟩⟩ ⟨⟨1, 1⟩⟩ = ⟨⟨-3, 4⟩⟩
    ∧ eval_subtract ⟨⟨-3, 4⟩⟩ ⟨⟨-3, 4⟩⟩ = ⟨⟨0, 1⟩⟩
    ∧ (eval_is_zero ⟨⟨-3, 4⟩⟩ = false →
        eval_divide ⟨⟨-3, 4⟩⟩ ⟨⟨-3, 4⟩⟩ = ⟨⟨⟨1, 1⟩⟩, none⟩) :=
  arithmetic_identity_laws ⟨⟨-3, 4⟩⟩ (by decide)

/-! ## Hashing -/

/-- C16: for canonical Fractions `a` and `b` with `a.compare(b) == 0`, `a` and `b` have the
same numerator and denominator and the same `hash_value`; `hash_value` is the combination
of the numerator's hash, taken first as the seed, with the denominator's hash, so it
depends on the pair only. -/
theorem hash_coherent_with_equality (H : HashOps) (a b : rational_adaptor)
    (ha : canonical a.data) (hb : canonical b.data) (heq : a.compare b = 0) :
    (a.data.num = b.data.num ∧ a.data.den = b.data.den)
    ∧ hash_value H a = hash_value H b
    ∧ hash_value H a = H.combine (H.hash_value a.data.num) (H.hash_value a.data.den)
    ∧ (∀ c d : rational_adaptor, c.data.num = d.data.num → c.data.den = d.data.den →
        hash_value H c = hash_value H d) := by
  have hv := (compare_values a b ha.1 hb.1).2.2.mp heq
  have hcross := (value_eq_iff _ _ ha.1 hb.1).mp hv
  have hab := canonical_eq_of_cross _ _ ha hb hcross
  refine ⟨?_, ?_, rfl, ?_⟩
  · rw [hab]; exact ⟨rfl, rfl⟩
  · unfold hash_value
    rw [hab]
  · intro c d h1 h2
    unfold hash_value
    rw [h1, h2]

/-- Witness for C16: `-2/3` reached by two different parses compares equal and hashes
equal under the concrete hash functions. -/
theorem hash_coherent_with_equality_witness :
    hash_value mixing_hash
        (operator_assign_cstr decimal_backend rational_adaptor.default "-4/6".toList).self
      = hash_value mixing_hash
        (operator_assign_cstr decimal_backend rational_adaptor.default "2/-3".toList).self :=
  (hash_coherent_with_equality mixing_hash
    (operator_assign_cstr decimal_backend rational_adaptor.default "-4/6".toList).self
    (operator_assign_cstr decimal_backend rational_adaptor.default "2/-3".toList).self
    (by decide) (by decide) (by decide)).2.1

/-! ## Negation -/

/-- C17: for every canonical Fraction `n/d`, `negate()` leaves `(-n)/d`, which is again
canonical; applied twice it restores the Fraction, and the negation of zero is `0/1`. -/
theorem negate_flips_numerator (a : rational_adaptor) (ha : canonical a.data) :
    a.negate.data.num = -a.data.num
    ∧ a.negate.data.den = a.data.den
    ∧ canonical a.negate.data
    ∧ a.negate.negate = a
    ∧ rational_adaptor.negate ⟨⟨0, 1⟩⟩ = ⟨⟨0, 1⟩⟩ := by
  refine ⟨rfl, rfl, ?_, ?_, by decide⟩
  · obtain ⟨h1, h2⟩ := ha
    refine ⟨h1, ?_⟩
    simpa [rational_adaptor.negate, rational_type.neg, rational_adaptor.data] using h2
  · cases a with
    | mk m =>
      cases m with
      | mk n d => simp [rational_adaptor.negate, rational_type.neg]

/-- Witness for C17, at `5/7`. -/
theorem negate_flips_numerator_witness :
    (rational_adaptor.negate ⟨⟨5, 7⟩⟩).data.num = -5
    ∧ (rational_adaptor.negate ⟨⟨5, 7⟩⟩).data.den = 7
    ∧ canonical (rational_adaptor.negate ⟨⟨5, 7⟩⟩).data
    ∧ (rational_adaptor.negate ⟨⟨5, 7⟩⟩).negate = ⟨⟨5, 7⟩⟩
    ∧ rational_adaptor.negate ⟨⟨0, 1⟩⟩ = ⟨⟨0, 1⟩⟩ :=
  negate_flips_numerator ⟨⟨5, 7⟩⟩ (by decide)

/-! ## Serialization -/

theorem serialize_load_unchanged_on_throw (self : rational_adaptor) (ar : Archive)
    (h : (self.serialize_load ar).1.thrown ≠ none) : (self.serialize_load ar).1.self = self := by
  unfold rational_adaptor.serialize_load at h ⊢
  cases h1 : archive_read ar "numerator".toList with
  | none => rfl
  | some p1 =>
    obtain ⟨n, ar1⟩ := p1
    rw [h1] at h
    dsimp only at h ⊢
    cases h2 : archive_read ar1 "denominator".toList with
    | none => rfl
    | some p2 =>
      obtain ⟨d, ar2⟩ := p2
      rw [h2] at h
      dsimp only at h ⊢
      rw [data_assign_eq] at h
      exact absurd rfl h

/-- C18: for a canonical Fraction `v`, saving writes the field `numerator` holding `v`'s
numerator and then the field `denominator` holding `v`'s denominator; loading from these
two fields leaves a Fraction with the numerator and denominator of `v` and consumes both;
and whenever loading throws (a field cannot be read), the target is left as it was. -/
theorem serialization_round_trip (self v : rational_adaptor) (hv : canonical v.data) :
    v.serialize_save [] = [("numerator".toList, v.data.num), ("denominator".toList, v.data.den)]
    ∧ self.serialize_load (v.serialize_save []) = (⟨v, none⟩, [])
    ∧ (∀ ar : Archive, (self.serialize_load ar).1.thrown ≠ none →
        (self.serialize_load ar).1.self = self)
    ∧ (∀ n : Int, self.serialize_load [("numerator".toList, n)]
        = (⟨self, some Exn.archive_error⟩, [])) := by
  have hd := canonical_den_ne_zero _ hv
  have hsave : v.serialize_save []
      = [("numerator".toList, v.data.num), ("denominator".toList, v.data.den)] := rfl
  refine ⟨hsave, ?_, fun ar h => serialize_load_unchanged_on_throw self ar h, ?_⟩
  · rw [hsave]
    simp only [rational_adaptor.serialize_load, archive_read, if_true]
    rw [data_assign_ok _ _ _ hd, reduce_of_canonical _ hv]
    rfl
  · intro n
    simp [rational_adaptor.serialize_load, archive_read]

/-- Witness for C18: `-7/3` saved and loaded into a target holding `1/2`. -/
theorem serialization_round_trip_witness :
    rational_adaptor.serialize_save ⟨⟨-7, 3⟩⟩ []
        = [("numerator".toList, -7), ("denominator".toList, 3)]
    ∧ rational_adaptor.serialize_load ⟨⟨1, 2⟩⟩ (rational_adaptor.serialize_save ⟨⟨-7, 3⟩⟩ [])
        = (⟨⟨⟨-7, 3⟩⟩, none⟩, []) :=
  ⟨(serialization_round_trip ⟨⟨1, 2⟩⟩ ⟨⟨-7, 3⟩⟩ (by decide)).1,
   (serialization_round_trip ⟨⟨1, 2⟩⟩ ⟨⟨-7, 3⟩⟩ (by decide)).2.1⟩

/-! ## The hexadecimal gate of the scanner -/

theorem hex_letter_in_alphabet (c : Char) (hc : is_hex_letter c = true) :
    in_scan_alphabet c = true := by
  unfold in_scan_alphabet is_hex_digit
  rw [hc]
  simp

theorem hex_letter_scan_cond (c : Char) (h : Bool) (hc : is_hex_letter c = true) :
    scan_cond c h = h := by
  cases h with
  | false => exact hex_letter_not_scanned c hc
  | true => exact scan_cond_of_alphabet c true (hex_letter_in_alphabet c hc) (Or.inr rfl)

theorem next_flag_of_ne (y : Char) (h : Bool) (hx : y ≠ 'x') (hX : y ≠ 'X') :
    next_flag y h = h := by
  unfold next_flag
  have h1 : (y == 'x') = false := by rw [beq_eq_false_iff_ne]; exact hx
  have h2 : (y == 'X') = false := by rw [beq_eq_false_iff_ne]; exact hX
  rw [h1, h2]
  rfl

theorem scan_without_x (c : Char) (post : List Char) (hc : is_hex_letter c = true)
    (pre : List Char) : ∀ s1 : List Char, 'x' ∉ pre → 'X' ∉ pre →
    ∃ t, (scan (pre ++ c :: post) false s1).s = t ++ c :: post
      ∧ (scan (pre ++ c :: post) false s1).have_hex = false
      ∧ ∀ y ∈ t, y ∈ pre := by
  induction pre with
  | nil =>
    intro s1 _ _
    refine ⟨[], ?_, ?_, ?_⟩
    · rw [List.nil_append, scan, hex_letter_not_scanned c hc]
      rfl
    · rw [List.nil_append, scan, hex_letter_not_scanned c hc]
      rfl
    · intro y hy
      exact absurd hy (List.not_mem_nil y)
  | cons y ys ih =>
    intro s1 hx hX
    have hyx : y ≠ 'x' := fun e => hx (e ▸ List.mem_cons_self _ _)
    have hyX : y ≠ 'X' := fun e => hX (e ▸ List.mem_cons_self _ _)
    have hx' : 'x' ∉ ys := fun h => hx (List.mem_cons_of_mem _ h)
    have hX' : 'X' ∉ ys := fun h => hX (List.mem_cons_of_mem _ h)
    rw [List.cons_append, scan]
    by_cases hs : scan_cond y false = true
    · rw [if_pos hs, next_flag_of_ne y false hyx hyX]
      obtain ⟨t, h1, h2, h3⟩ := ih (s1 ++ [y]) hx' hX'
      exact ⟨t, h1, h2, fun z hz => List.mem_cons_of_mem _ (h3 z hz)⟩
    · rw [if_neg hs]
      exact ⟨y :: ys, rfl, rfl, fun z hz => hz⟩

theorem hex_letter_ne_slash (c : Char) (hc : is_hex_letter c = true) : c ≠ '/' := by
  intro e
  subst e
  exact absurd hc (by decide)

theorem hex_letter_ne_nul (c : Char) (hc : is_hex_letter c = true) : c ≠ NUL := by
  intro e
  subst e
  exact absurd hc (by decide)

theorem unconsumed_without_x (c : Char) (pre post : List Char) (hc : is_hex_letter c = true)
    (hx : 'x' ∉ pre) (hX : 'X' ∉ pre) :
    ∃ t, unconsumed (pre ++ c :: post) = t ++ c :: post ∧ ∀ y ∈ t, y ∈ pre := by
  obtain ⟨t, h1, h2, h3⟩ := scan_without_x c post hc pre [] hx hX
  unfold unconsumed
  by_cases hd : deref (scan (pre ++ c :: post) false []).s = '/'
  · simp only [if_pos hd]
    rw [h1] at hd ⊢
    rw [h2]
    cases t with
    | nil =>
      exfalso
      exact hex_letter_ne_slash c hc (by simpa [deref] using hd)
    | cons z t' =>
      have hx' : 'x' ∉ t' := fun h => hx (h3 _ (List.mem_cons_of_mem _ h))
      have hX' : 'X' ∉ t' := fun h => hX (h3 _ (List.mem_cons_of_mem _ h))
      obtain ⟨u, k1, _, k3⟩ := scan_without_x c post hc t' [] hx' hX'
      refine ⟨u, ?_, fun y hy => h3 y (List.mem_cons_of_mem _ (k3 y hy))⟩
      simpa using k1
  · simp only [if_neg hd]
    exact ⟨t, h1, h3⟩

theorem flag_after_true (a : List Char) : flag_after true a = true := by
  induction a with
  | nil => rfl
  | cons c t ih =>
    have hn : next_flag c true = true := by simp [next_flag]
    rw [flag_after, hn, ih]

theorem flag_after_of_mem (a : List Char) : ∀ h : Bool, ('x' ∈ a ∨ 'X' ∈ a) →
    flag_after h a = true := by
  induction a with
  | nil =>
    intro h hm
    rcases hm with hm | hm <;> exact absurd hm (List.not_mem_nil _)
  | cons c t ih =>
    intro h hm
    rw [flag_after]
    by_cases hc : c = 'x' ∨ c = 'X'
    · have hn : next_flag c h = true := by
        rcases hc with e | e <;> subst e <;> simp [next_flag]
      rw [hn, flag_after_true]
    · have hm' : 'x' ∈ t ∨ 'X' ∈ t := by
        rcases hm with hm | hm
        · rcases List.mem_cons.mp hm with e | e
          · exact absurd (Or.inl e.symm) hc
          · exact Or.inl e
        · rcases List.mem_cons.mp hm with e | e
          · exact absurd (Or.inr e.symm) hc
          · exact Or.inr e
      exact ih _ hm'

/-- C19: the scan loop accepts a hexadecimal letter exactly when `have_hex` is set. For an
input with a hexadecimal letter `c` and no `x`/`X` before it, `c` and all that follows are
left unconsumed, and (no NUL before `c`, parts accepted by the backend) the
trailing-characters parse error is raised; so for `1/f` and `ff`. When the numerator text
`N` holds an `x` or `X`, the flag stays set for the denominator: hexadecimal digits `D`
after the `/` are consumed whole and handed to the backend as they are; for `0x1/f` the
whole input is consumed and the denominator text is `f`. -/
theorem hex_digits_need_earlier_x :
    (∀ (c : Char) (h : Bool), is_hex_letter c = true → scan_cond c h = h)
    ∧ (∀ (c : Char) (pre post : List Char), is_hex_letter c = true → 'x' ∉ pre → 'X' ∉ pre →
        ∃ t, unconsumed (pre ++ c :: post) = t ++ c :: post)
    ∧ (∀ (B : IntBackend) (self : rational_adaptor) (c : Char) (pre post : List Char)
        (v1 v2 : Int), is_hex_letter c = true → 'x' ∉ pre → 'X' ∉ pre → NUL ∉ pre →
        parsed_components B (pre ++ c :: post) = some (v1, v2) →
        operator_assign_cstr B self (pre ++ c :: post)
          = ⟨self, some (Exn.runtime_error (parse_error_message (pre ++ c :: post)))⟩)
    ∧ (∀ N D : List Char, scanned_whole false N = true → ('x' ∈ N ∨ 'X' ∈ N) →
        (∀ c ∈ D, is_hex_digit c = true) →
        numerator_text (N ++ '/' :: D) = N ∧ denominator_text (N ++ '/' :: D) = some D
          ∧ unconsumed (N ++ '/' :: D) = [])
    ∧ unconsumed "1/f".toList = "f".toList
    ∧ unconsumed "ff".toList = "ff".toList
    ∧ operator_assign_cstr decimal_backend rational_adaptor.default "1/f".toList
        = ⟨rational_adaptor.default, some (Exn.runtime_error
            "Could not parse the string \"1/f\" as a valid rational number.".toList)⟩
    ∧ operator_assign_cstr decimal_backend rational_adaptor.default "ff".toList
        = ⟨rational_adaptor.default, some (Exn.runtime_error
            "Could not parse the string \"ff\" as a valid rational number.".toList)⟩
    ∧ unconsumed "0x1/f".toList = []
    ∧ numerator_text "0x1/f".toList = "0x1".toList
    ∧ denominator_text "0x1/f".toList = some "f".toList := by
  refine ⟨hex_letter_scan_cond, ?_, ?_, ?_, by decide, by decide, by decide, by decide,
    by decide, by decide, by decide⟩
  · intro c pre post hc hx hX
    obtain ⟨t, ht, _⟩ := unconsumed_without_x c pre post hc hx hX
    exact ⟨t, ht⟩
  · intro B self c pre post v1 v2 hc hx hX hnul hp
    obtain ⟨t, ht, hsub⟩ := unconsumed_without_x c pre post hc hx hX
    rw [operator_assign_cstr_eq, hp]
    have hrest : deref (unconsumed (pre ++ c :: post)) ≠ NUL := by
      rw [ht]
      cases t with
      | nil => simpa [deref] using hex_letter_ne_nul c hc
      | cons z t' =>
        have hz : z ∈ pre := hsub z (List.mem_cons_self _ _)
        have : z ≠ NUL := fun e => hnul (e ▸ hz)
        simpa [deref] using this
    simp only [finish_assign, hrest, ne_eq, not_false_eq_true, if_true]
  · intro N D hN hx hD
    have hf := flag_after_of_mem N false hx
    have hDw : scanned_whole (flag_after false N) D = true := by
      rw [hf]
      refine scanned_whole_of_alphabet D true ?_ (hex_letters_follow_x_true D)
      intro c hc
      unfold in_scan_alphabet
      rw [hD c hc]
      simp
    exact scan_fraction_text N D hN hDw

/-- Witness for C19: in `0x1F/ab` the numerator text holds an `x`, so the denominator text
`ab` is consumed whole and handed over without a prefix. -/
theorem hex_digits_need_earlier_x_witness :
    numerator_text "0x1F/ab".toList = "0x1F".toList
    ∧ denominator_text "0x1F/ab".toList = some "ab".toList
    ∧ unconsumed "0x1F/ab".toList = [] :=
  hex_digits_need_earlier_x.2.2.2.1 "0x1F".toList "ab".toList (by decide)
    (Or.inl (by decide)) (by decide)

/-! ## Failed text assignment -/

theorem finish_assign_unchanged_on_throw (self : rational_adaptor) (p s : List Char)
    (v1 v2 : Int) (e : Exn) (h : (self.finish_assign p s v1 v2).thrown = some e) :
    (self.finish_assign p s v1 v2).self = self := by
  unfold rational_adaptor.finish_assign at h ⊢
  by_cases hr : deref s ≠ NUL
  · rw [if_pos hr]
  · rw [if_neg hr] at h ⊢
    rw [data_assign_eq] at h
    exact absurd h (by simp)

/-- C20: whenever text assignment throws (the trailing-characters parse error, or any
other exception), the Fraction holds exactly the numerator and denominator it held before
the call; the parse error is thrown exactly when the backend accepted the scanned parts
and a character is left unconsumed, before anything is stored. -/
theorem failed_text_assignment_is_atomic (B : IntBackend) (self : rational_adaptor)
    (s : List Char) (e : Exn) (h : (operator_assign_cstr B self s).thrown = some e) :
    (operator_assign_cstr B self s).self = self
    ∧ (operator_assign_cstr B self s).self.data.num = self.data.num
    ∧ (operator_assign_cstr B self s).self.data.den = self.data.den
    ∧ (∀ msg, e = Exn.runtime_error msg →
        msg = parse_error_message s ∧ deref (unconsumed s) ≠ NUL) := by
  have hself : (operator_assign_cstr B self s).self = self := by
    rw [operator_assign_cstr_eq] at h ⊢
    cases hp : parsed_components B s with
    | none => rfl
    | some v =>
      obtain ⟨v1, v2⟩ := v
      rw [hp] at h
      exact finish_assign_unchanged_on_throw self s _ v1 v2 e h
  refine ⟨hself, by rw [hself], by rw [hself], ?_⟩
  intro msg he
  subst he
  rw [operator_assign_cstr_eq] at h
  cases hp : parsed_components B s with
  | none =>
    rw [hp] at h
    exact absurd h (by simp)
  | some v =>
    obtain ⟨v1, v2⟩ := v
    rw [hp] at h
    dsimp only at h
    unfold rational_adaptor.finish_assign at h
    by_cases hr : deref (unconsumed s) ≠ NUL
    · rw [if_pos hr] at h
      have : parse_error_message s = msg := by simpa using h
      exact ⟨this.symm, hr⟩
    · rw [if_neg hr] at h
      exfalso
      rw [data_assign_eq] at h
      exact absurd h (by simp)

/-- Witness for C20: the Fraction `5/7` is still `5/7` after the failed assignment of the
text `1/2` followed by a blank. -/
theorem failed_text_assignment_is_atomic_witness :
    (operator_assign_cstr decimal_backend ⟨⟨5, 7⟩⟩ "1/2 ".toList).self = ⟨⟨5, 7⟩⟩
    ∧ (operator_assign_cstr decimal_backend ⟨⟨5, 7⟩⟩ "1/2 ".toList).thrown
        = some (Exn.runtime_error
            "Could not parse the string \"1/2 \" as a valid rational number.".toList) :=
  ⟨(failed_text_assignment_is_atomic decimal_backend ⟨⟨5, 7⟩⟩ "1/2 ".toList
      (Exn.runtime_error
        "Could not parse the string \"1/2 \" as a valid rational number.".toList)
      (by decide)).1, by decide⟩

end Multiprecision
